import Mathlib

/-!
Verification of the duplicate-file hardlinking engine (src/main.rs).

The filesystem is modelled as a partial map from paths to inode numbers
together with a content map on inodes; paths, inode numbers and device ids
are natural numbers and file contents are lists of naturals (bytes).
Fallible filesystem operations are driven by an explicit failure oracle so
that partial-failure behaviour of the engine can be stated.  Every mutation
and every content comparison is recorded in an event trace.
-/

namespace Lndups

/-- Byte contents of a file. -/
abbrev Bytes := List Nat

/-- Filesystem path, identified by a natural number. -/
abbrev FPath := Nat

/-- Inode number. -/
abbrev Ino := Nat

/-- Model of the run configuration `Config` (src/main.rs:80); only the two
fields the engine reads are kept. -/
structure Config where
  dry_run : Bool
  min_size : Nat
deriving Repr, DecidableEq

/-- Model of `PathWithMetadata` (src/main.rs:327): a path together with the
cached metadata snapshot; after bucketing the engine only ever reads the
cached inode number, so that is the field kept here. -/
structure PWMD where
  path : FPath
  cachedIno : Ino
deriving Repr, DecidableEq, Inhabited

/-- Filesystem state: which inode each existing path resolves to, the byte
contents of each inode, and a counter supplying fresh inode numbers for the
copy fallback. -/
structure FS where
  links : FPath → Option Ino
  content : Ino → Bytes
  nextIno : Ino

/-- Observable events: filesystem mutations and content comparisons performed
by the engine, plus a marker for an out-of-bounds index (a panic in the
original program). -/
inductive Ev where
  | removeEv (p : FPath)
  | linkEv (keep rep : FPath)
  | copyEv (keep rep : FPath)
  | cmpEv (p1 p2 : FPath)
  | panicEv
deriving Repr, DecidableEq

/-- Failure oracle: decides which fallible filesystem operations succeed.
Operations are keyed by the path being operated on (the replace path for
remove, link, copy and the metadata refresh; each opened path for reads). -/
structure Oracle where
  openOk : FPath → Bool
  removeOk : FPath → Bool
  linkOk : FPath → Bool
  copyOk : FPath → Bool
  resetOk : FPath → Bool

/-- Oracle under which every filesystem operation succeeds. -/
def allOk : Oracle :=
  ⟨fun _ => true, fun _ => true, fun _ => true, fun _ => true, fun _ => true⟩

/-- Semantics of removing a path: fails when the path does not exist. -/
def FS.removeFile (fs : FS) (p : FPath) : Option FS :=
  match fs.links p with
  | none => none
  | some _ => some { fs with links := fun q => if q = p then none else fs.links q }

/-- Semantics of creating a hardlink at `rep` to the inode of `keep`: fails
when `keep` does not exist or `rep` already exists. -/
def FS.hardLink (fs : FS) (keep rep : FPath) : Option FS :=
  match fs.links keep, fs.links rep with
  | some i, none =>
      some { fs with links := fun q => if q = rep then some i else fs.links q }
  | _, _ => none

/-- Semantics of a byte copy of `keep` to `rep`: a fresh inode is allocated
and receives the contents of the inode of `keep`. -/
def FS.copyFile (fs : FS) (keep rep : FPath) : Option FS :=
  match fs.links keep with
  | none => none
  | some i =>
      some { links := fun q => if q = rep then some fs.nextIno else fs.links q,
             content := fun n => if n = fs.nextIno then fs.content i else fs.content n,
             nextIno := fs.nextIno + 1 }

/-- Removal as attempted by the program: subject to the failure oracle. -/
def tryRemove (o : Oracle) (fs : FS) (p : FPath) : Option FS :=
  if o.removeOk p then fs.removeFile p else none

/-- Hardlink creation as attempted by the program, keyed by the replace path. -/
def tryLink (o : Oracle) (fs : FS) (keep rep : FPath) : Option FS :=
  if o.linkOk rep then fs.hardLink keep rep else none

/-- Byte-copy as attempted by the program, keyed by the destination path. -/
def tryCopy (o : Oracle) (fs : FS) (keep rep : FPath) : Option FS :=
  if o.copyOk rep then fs.copyFile keep rep else none

/-- Model of `cmp_read` (src/main.rs:526).  A reader is modelled as the
sequence of chunks returned by its successive `read` calls; an exhausted
reader returns an empty chunk, which the loop takes as end of file.  The loop
returns `false` as soon as the two chunks read in one round differ in length
or in contents, and `true` when both readers hit end of file together. -/
def cmp_read : List Bytes → List Bytes → Bool
  | [], [] => true
  | [], c2 :: _ => c2.length = 0
  | c1 :: _, [] => c1.length = 0
  | c1 :: r1, c2 :: r2 =>
    if c1.length ≠ c2.length then false
    else if c1.length = 0 then true
    else if c1 ≠ c2 then false
    else cmp_read r1 r2

/-- Chunk sequence produced by reading a regular file to the end through the
1024-byte buffer used by `cmp_read` (src/main.rs:527). -/
def fileChunks : Bytes → List Bytes
  | [] => []
  | b :: bs => (b :: bs).take 1024 :: fileChunks ((b :: bs).drop 1024)
termination_by b => b.length
decreasing_by
  simp [List.length_drop]
  omega

/-- Model of `cmp` (src/main.rs:521): open both paths and compare their
contents with `cmp_read`; `none` models an I/O error (an open refused by the
oracle, or a missing path). -/
def cmp (o : Oracle) (fs : FS) (p1 p2 : FPath) : Option Bool :=
  if o.openOk p1 && o.openOk p2 then
    match fs.links p1, fs.links p2 with
    | some i1, some i2 =>
        some (cmp_read (fileChunks (fs.content i1)) (fileChunks (fs.content i2)))
    | _, _ => none
  else none

/-- Model of `hardlink` (src/main.rs:432): remove the replace path, create a
hardlink to the keep path there, fall back to a byte copy when the link
fails, and on full success refresh the cached metadata of the replace record
from the now shared inode.  The first component is the refreshed record on
success and `none` on error; the filesystem and the emitted mutation events
are returned in every case. -/
def hardlink (o : Oracle) (keep replace : PWMD) (fs : FS) :
    Option PWMD × FS × List Ev :=
  match tryRemove o fs replace.path with
  | none => (none, fs, [])
  | some fs1 =>
    match tryLink o fs1 keep.path replace.path with
    | some fs2 =>
      match o.resetOk replace.path, fs2.links replace.path with
      | true, some i =>
          (some { replace with cachedIno := i }, fs2,
            [Ev.removeEv replace.path, Ev.linkEv keep.path replace.path])
      | _, _ =>
          (none, fs2,
            [Ev.removeEv replace.path, Ev.linkEv keep.path replace.path])
    | none =>
      match tryCopy o fs1 keep.path replace.path with
      | some fs2 =>
          (none, fs2,
            [Ev.removeEv replace.path, Ev.copyEv keep.path replace.path])
      | none => (none, fs1, [Ev.removeEv replace.path])

/-- Member loop of `hardlink_all` (src/main.rs:452): attempt to hardlink each
member of `replaces` to the head of `keeps`; a successfully linked member is
appended to `keeps`, a failed member is skipped and processing continues with
the next member.  In dry-run mode the filesystem is untouched and members are
appended as if linked. -/
def hardlinkMembers (o : Oracle) (cfg : Config) :
    List PWMD → List PWMD → FS → List PWMD × FS × List Ev
  | [], ks, fs => (ks, fs, [])
  | r :: rs, ks, fs =>
    if cfg.dry_run then hardlinkMembers o cfg rs (ks ++ [r]) fs
    else
      match hardlink o (ks.headD default) r fs with
      | (some r2, fs2, evs) =>
        let rest := hardlinkMembers o cfg rs (ks ++ [r2]) fs2
        (rest.1, rest.2.1, evs ++ rest.2.2)
      | (none, fs2, evs) =>
        let rest := hardlinkMembers o cfg rs ks fs2
        (rest.1, rest.2.1, evs ++ rest.2.2)

/-- Model of `hardlink_all` (src/main.rs:446): compare the representatives of
the replace cluster and the keep cluster; when they compare equal, merge every
member of the replace cluster into the keep cluster.  Returns whether the
clusters compared equal, together with the updated keep cluster, the
filesystem and the emitted events. -/
def hardlink_all (o : Oracle) (cfg : Config) (keeps replaces : List PWMD)
    (fs : FS) : Bool × List PWMD × FS × List Ev :=
  let rp := (replaces.headD default).path
  let kp := (keeps.headD default).path
  if (cmp o fs rp kp).getD false then
    let rest := hardlinkMembers o cfg replaces keeps fs
    (true, rest.1, rest.2.1, Ev.cmpEv rp kp :: rest.2.2)
  else
    (false, keeps, fs, [Ev.cmpEv rp kp])

/-- Model of `get2mut` (src/main.rs:426): split the slice at `j` and index
`left[i]` and `right[0]`; `none` models the panic on out-of-range indices. -/
def get2mut {α : Type} (v : List α) (i j : Nat) : Option (α × α) :=
  if j > v.length then none
  else
    match (v.take j).get? i, (v.drop j).get? 0 with
    | some a, some b => some (a, b)
    | _, _ => none

/-- Model of `Vec::swap_remove` at index `j`: overwrite index `j` with the
last element, then drop the last element. -/
def swapRemove (v : List (List PWMD)) (j : Nat) : List (List PWMD) :=
  (v.set j (v.getD (v.length - 1) [])).dropLast

/-- Double cursor loop of `run_one_size` (src/main.rs:272): compare the
cluster at `i` against each later cluster at `j`; an absorbed cluster is
removed from the worklist by swap-removal, otherwise `j` advances.  When the
inner cursor exhausts the worklist the outer cursor advances. -/
def mergeLoop (o : Oracle) (cfg : Config) (v : List (List PWMD)) (i j : Nat)
    (fs : FS) : List (List PWMD) × FS × List Ev :=
  if hi : i < v.length then
    if hj : j < v.length then
      match get2mut v i j with
      | none => (v, fs, [Ev.panicEv])
      | some (keeps, replaces) =>
        let res := hardlink_all o cfg keeps replaces fs
        let v2 := v.set i res.2.1
        if res.1 then
          let rest := mergeLoop o cfg (swapRemove v2 j) i j res.2.2.1
          (rest.1, rest.2.1, res.2.2.2 ++ rest.2.2)
        else
          let rest := mergeLoop o cfg v2 i (j + 1) res.2.2.1
          (rest.1, rest.2.1, res.2.2.2 ++ rest.2.2)
    else
      mergeLoop o cfg v (i + 1) (i + 2) fs
  else (v, fs, [])
termination_by (v.length - i, v.length - j)
decreasing_by
  · apply Prod.Lex.left
    simp [swapRemove, List.length_dropLast, List.length_set]
    omega
  · simp only [List.length_set]
    apply Prod.Lex.right
    omega
  · apply Prod.Lex.left
    omega

/-- Sorted-insert grouping by inode number: the `binary_search` plus `insert`
loop of `run_one_size` (src/main.rs:256), maintaining the key list in
ascending order with members appended in arrival order. -/
def insertByInode (p : PWMD) : List (Ino × List PWMD) → List (Ino × List PWMD)
  | [] => [(p.cachedIno, [p])]
  | (ino, c) :: rest =>
    if p.cachedIno = ino then (ino, c ++ [p]) :: rest
    else if p.cachedIno < ino then (p.cachedIno, [p]) :: (ino, c) :: rest
    else (ino, c) :: insertByInode p rest

/-- Insertion into a cluster list kept in descending length order. -/
def insertDescLen (c : List PWMD) : List (List PWMD) → List (List PWMD)
  | [] => [c]
  | d :: ds => if d.length ≥ c.length then d :: insertDescLen c ds else c :: d :: ds

/-- Model of the sort `sort_by(|a,b| b.len().cmp(&a.len()))`
(src/main.rs:269): clusters in descending member count order. -/
def sortDescLen (l : List (List PWMD)) : List (List PWMD) :=
  l.foldr insertDescLen []

/-- Grouping phase of `run_one_size`: partition one size bucket into inode
clusters and order the clusters by descending member count. -/
def buildByInode (pwmds : List PWMD) : List (List PWMD) :=
  sortDescLen ((pwmds.foldl (fun acc p => insertByInode p acc) []).map Prod.snd)

/-- Model of `run_one_size` (src/main.rs:245): group one size bucket into
inode clusters and run the pairwise merge loop over the cluster worklist. -/
def run_one_size (o : Oracle) (cfg : Config) (pwmds : List PWMD) (fs : FS) :
    List (List PWMD) × FS × List Ev :=
  mergeLoop o cfg (buildByInode pwmds) 0 1 fs

/-- Per-bucket loop of `run` (src/main.rs:240): process each retained size
bucket in turn, threading the filesystem. -/
def runBuckets (o : Oracle) (cfg : Config) : List (List PWMD) → FS → FS × List Ev
  | [], fs => (fs, [])
  | b :: rest, fs =>
    let r1 := run_one_size o cfg b fs
    let r2 := runBuckets o cfg rest r1.2.1
    (r2.1, r1.2.2 ++ r2.2)

/-- Filesystem subtree as seen by the walker `register` (src/main.rs:290):
regular files carry their device id and byte size, directories carry their
device id and entries, and symlinks are opaque. -/
inductive FsNode where
  | file (dev : Nat) (size : Nat) : FsNode
  | symlink : FsNode
  | dir (dev : Nat) (entries : List FsNode) : FsNode

/-- Record produced for an eligible regular file: device id and byte size. -/
structure FileRec where
  dev : Nat
  size : Nat
deriving Repr, DecidableEq

mutual

/-- Model of `register` (src/main.rs:290): skip symlinks, keep a regular file
exactly when its size is at least `min_size`, recurse into directories. -/
def register (cfg : Config) : FsNode → List FileRec
  | .symlink => []
  | .file d sz => if sz ≥ cfg.min_size then [⟨d, sz⟩] else []
  | .dir _ es => registerList cfg es

/-- Registration of the entries of a directory, in order. -/
def registerList (cfg : Config) : List FsNode → List FileRec
  | [] => []
  | e :: es => register cfg e ++ registerList cfg es

end

/-- Effective minimum size computed in `main` (src/main.rs:94):
`args.min_size.map(|v| if v > 1 { v } else { 1 }).unwrap_or(1)`. -/
def effective_min_size : Option Nat → Nat
  | none => 1
  | some v => if v > 1 then v else 1

/-- One line of the cross-device report (src/main.rs:413): a device id with
exactly one offending path is reported with that example path; a device id
with several paths is reported only with their count. -/
inductive DevEntry where
  | withExample (dev : Nat) (path : FPath) : DevEntry
  | countOnly (dev : Nat) (count : Nat) : DevEntry
deriving Repr, DecidableEq

/-- Device id carried by a report line. -/
def devOf : DevEntry → Nat
  | .withExample d _ => d
  | .countOnly d _ => d

/-- Grouping of root records by device id, in first-seen device order with
paths kept in arrival order (the `by_dev` map of src/main.rs:404). -/
def addToDev (d : Nat) (p : FPath) :
    List (Nat × List FPath) → List (Nat × List FPath)
  | [] => [(d, [p])]
  | (d2, ps) :: rest =>
    if d2 = d then (d2, ps ++ [p]) :: rest else (d2, ps) :: addToDev d p rest

/-- Fold building the device grouping of a list of (path, device) roots. -/
def groupByDev (roots : List (FPath × Nat)) : List (Nat × List FPath) :=
  roots.foldl (fun acc r => addToDev r.2 r.1 acc) []

/-- Model of `check_all_same_device` (src/main.rs:400), applied to the target
root records of one set: at most one root, or all roots on one device id, is
accepted; otherwise the per-device report is returned as the error. -/
def check_all_same_device (roots : List (FPath × Nat)) :
    Except (List DevEntry) Unit :=
  if roots.length ≤ 1 then .ok ()
  else
    let by_dev := groupByDev roots
    if by_dev.length ≤ 1 then .ok ()
    else .error (by_dev.map fun g =>
      match g.2 with
      | [p] => DevEntry.withExample g.1 p
      | _ => DevEntry.countOnly g.1 g.2.length)

/-- Device check loop of `main` (src/main.rs:118): every target set is checked
and the first failing set aborts the whole run. -/
def checkAllSets : List (List (FPath × Nat)) → Except (List DevEntry) Unit
  | [] => .ok ()
  | s :: rest =>
    match check_all_same_device s with
    | .error e => .error e
    | .ok _ => checkAllSets rest

/-- Check-then-run sequencing of `main` (src/main.rs:118): all device checks
run before any set is processed; a failing check aborts with the filesystem
untouched and no events emitted.  `runs` holds the retained size buckets of
each target set. -/
def mainCheckThenRun (o : Oracle) (cfg : Config)
    (sets : List (List (FPath × Nat))) (runs : List (List (List PWMD)))
    (fs : FS) : FS × List Ev × Option (List DevEntry) :=
  match checkAllSets sets with
  | .error e => (fs, [], some e)
  | .ok _ =>
    let r := runs.foldl (fun (st : FS × List Ev) bs =>
      let r2 := runBuckets o cfg bs st.1
      (r2.1, st.2 ++ r2.2)) (fs, [])
    (r.1, r.2, none)

/-- Paths mentioned by an event. -/
def evPaths : Ev → List FPath
  | .removeEv p => [p]
  | .linkEv k r => [k, r]
  | .copyEv k r => [k, r]
  | .cmpEv p1 p2 => [p1, p2]
  | .panicEv => []

/-- Freshness invariant of a filesystem: every live inode number is below the
fresh-inode counter, so copies never clobber the contents of a live inode. -/
def FR (fs : FS) : Prop := ∀ p i, fs.links p = some i → i < fs.nextIno

/-- Concrete example filesystem used by witnesses and counterexamples: paths
1 and 2 hold byte-identical two-byte files on inodes 10 and 20, path 3 holds
different content on inode 30, and fresh inodes start at 100. -/
def exFS : FS where
  links p := if p = 1 then some 10 else if p = 2 then some 20 else
    if p = 3 then some 30 else none
  content i := if i = 10 then [7, 7] else if i = 20 then [7, 7] else
    if i = 30 then [8, 8] else []
  nextIno := 100

/-- Oracle that refuses hardlink creation at path 1 and allows all else. -/
def exLinkFail : Oracle := { allOk with linkOk := fun p => decide (p ≠ 1) }

/-- Oracle that refuses both hardlink creation and copying at path 1. -/
def exDoubleFail : Oracle :=
  { allOk with linkOk := fun p => decide (p ≠ 1), copyOk := fun p => decide (p ≠ 1) }

/-- Whether an event is a filesystem mutation (remove, link or copy). -/
def isMut : Ev → Bool
  | .removeEv _ => true
  | .linkEv _ _ => true
  | .copyEv _ _ => true
  | .cmpEv _ _ => false
  | .panicEv => false

/-- Paths of all records in a cluster worklist. -/
def memberPaths (v : List (List PWMD)) : List FPath :=
  (v.map (fun c => c.map PWMD.path)).flatten

/-- Well-formedness of a cluster worklist with respect to a filesystem: every
cluster is nonempty, every member of a cluster is linked on disk to the
cached inode of the cluster head and carries that inode in its own cache,
and no path occurs twice across the worklist. -/
def ClusterInv (fs : FS) (v : List (List PWMD)) : Prop :=
  (∀ c ∈ v, c ≠ []) ∧
  (∀ c ∈ v, ∀ m ∈ c, fs.links m.path = some (c.headD default).cachedIno ∧
    m.cachedIno = (c.headD default).cachedIno) ∧
  (memberPaths v).Nodup

/-- Data preservation between two filesystem states: every path that existed
before still exists and resolves to byte-identical content. -/
def Preserves (fs fs2 : FS) : Prop :=
  ∀ p i, fs.links p = some i →
    ∃ i2, fs2.links p = some i2 ∧ fs2.content i2 = fs.content i

/-- Inode cached by the head of the cluster at position `k` of a worklist. -/
def headIno (v : List (List PWMD)) (k : Nat) : Ino :=
  ((v.getD k []).headD default).cachedIno

/-- Representative path of the cluster at position `k` of a worklist: the
path of its head record, the one used in every content comparison. -/
def headPath (v : List (List PWMD)) (k : Nat) : FPath :=
  ((v.getD k []).headD default).path

/-- The unordered pair of two paths, normalised to ascending order. -/
def unorderedPair (a b : FPath) : FPath × FPath :=
  if a ≤ b then (a, b) else (b, a)

/-- The unordered path pairs of the content comparisons of a trace, in
order of occurrence. -/
def cmpPairs (trace : List Ev) : List (FPath × FPath) :=
  trace.filterMap fun e => match e with
    | Ev.cmpEv p q => some (unorderedPair p q)
    | _ => none

/-- Content valuation of a worklist: every cluster's shared inode holds, for
each of its members, the bytes the valuation `g` assigns to that member's
path (used with `g` fixed to the original content of each registered file). -/
def ClusterVal (g : FPath → Bytes) (fs : FS) (v : List (List PWMD)) : Prop :=
  ∀ c ∈ v, ∀ m ∈ c, fs.content ((c.headD default).cachedIno) = g m.path

/-! ## Theorems -/

/-! ### Lemmas about `cmp_read` and `fileChunks` -/

theorem cmp_read_eq_iff (l1 : List Bytes) :
    ∀ (l2 : List Bytes), (∀ c ∈ l1, c ≠ []) → (∀ c ∈ l2, c ≠ []) →
    (cmp_read l1 l2 = true ↔ l1 = l2) := by
  induction l1 with
  | nil =>
    intro l2 _ h2
    cases l2 with
    | nil => simp [cmp_read]
    | cons c2 r2 =>
      have hc : c2 ≠ [] := h2 c2 (by simp)
      simp [cmp_read, List.length_eq_zero, hc]
  | cons c1 r1 ih =>
    intro l2 h1 h2
    cases l2 with
    | nil =>
      have hc : c1 ≠ [] := h1 c1 (by simp)
      simp [cmp_read, List.length_eq_zero, hc]
    | cons c2 r2 =>
      have hc1 : c1 ≠ [] := h1 c1 (by simp)
      have hc2 : c2 ≠ [] := h2 c2 (by simp)
      have hlen1 : ¬ (c1.length = 0) := by simpa [List.length_eq_zero] using hc1
      have hlen2 : ¬ (c2.length = 0) := by simpa [List.length_eq_zero] using hc2
      by_cases hlen : c1.length = c2.length
      · by_cases heq : c1 = c2
        · subst heq
          rw [show cmp_read (c1 :: r1) (c1 :: r2) = cmp_read r1 r2 by
            simp [cmp_read, hlen1]]
          rw [ih r2 (fun c hc => h1 c (by simp [hc])) (fun c hc => h2 c (by simp [hc]))]
          simp
        · rw [show cmp_read (c1 :: r1) (c2 :: r2) = false by
            simp [cmp_read, hlen, hlen1, hlen2, heq]]
          simp [heq]
      · rw [show cmp_read (c1 :: r1) (c2 :: r2) = false by
            simp [cmp_read, hlen]]
        simp
        intro h
        exact absurd (congrArg List.length h) hlen

theorem fileChunks_flatten : ∀ b : Bytes, (fileChunks b).flatten = b := by
  intro b
  induction b using fileChunks.induct with
  | case1 => simp [fileChunks]
  | case2 b bs ih =>
    rw [fileChunks, List.flatten_cons, ih]
    exact List.take_append_drop 1024 (b :: bs)

theorem fileChunks_ne_nil : ∀ b : Bytes, ∀ c ∈ fileChunks b, c ≠ [] := by
  intro b
  induction b using fileChunks.induct with
  | case1 => simp [fileChunks]
  | case2 b bs ih =>
    intro c hc
    rw [fileChunks] at hc
    rcases List.mem_cons.mp hc with h | h
    · subst h
      intro hnil
      have := congrArg List.length hnil
      simp [List.length_take] at this
    · exact ih c h

theorem cmp_read_fileChunks_iff (b1 b2 : Bytes) :
    cmp_read (fileChunks b1) (fileChunks b2) = true ↔ b1 = b2 := by
  rw [cmp_read_eq_iff _ _ (fileChunks_ne_nil b1) (fileChunks_ne_nil b2)]
  constructor
  · intro h
    have := congrArg List.flatten h
    simpa [fileChunks_flatten] using this
  · intro h; rw [h]

/-! ### C9 -/

/-- C9 counterexample: the claim states that `cmp_read` decides byte equality
regardless of how the underlying reads are chunked.  The two readers below
deliver the identical byte sequence `[1, 2]` in different chunkings, yet
`cmp_read` returns `false`, so the claim as stated is false. -/
theorem c9_counterexample :
    cmp_read [[1, 2]] [[1], [2]] = false ∧
    List.flatten [[1, 2]] = List.flatten [([1] : Bytes), [2]] := by
  constructor
  · decide
  · decide

/-- C9 (amended): `cmp_read` compares the two readers chunk by chunk, so for
readers whose reads never spuriously return zero bytes it returns `true`
exactly when the two chunk sequences are identical; in particular it is a
byte-exact equality check when both inputs are delivered with the same chunk
boundaries, as happens for two regular files read to the end through the
fixed 1024-byte buffers, but byte-identical content chunked differently can
compare unequal. -/
theorem c9_cmp_read_exact :
    (∀ (l1 l2 : List Bytes), (∀ c ∈ l1, c ≠ []) → (∀ c ∈ l2, c ≠ []) →
      (cmp_read l1 l2 = true ↔ l1 = l2)) ∧
    (∀ b1 b2 : Bytes, cmp_read (fileChunks b1) (fileChunks b2) = true ↔ b1 = b2) :=
  ⟨fun l1 l2 h1 h2 => cmp_read_eq_iff l1 l2 h1 h2,
   fun b1 b2 => cmp_read_fileChunks_iff b1 b2⟩

/-- C9 witness: the amended theorem applied to two concrete equal readers. -/
theorem c9_witness :
    (∀ c ∈ [([5, 6] : Bytes)], c ≠ []) ∧ cmp_read [[5, 6]] [[5, 6]] = true :=
  ⟨by decide,
   (c9_cmp_read_exact.1 [[5, 6]] [[5, 6]] (by decide) (by decide)).mpr rfl⟩

/-! ### C7 -/

theorem registerList_mem (cfg : Config) (r : FileRec) :
    ∀ es : List FsNode, (r ∈ registerList cfg es ↔ ∃ e ∈ es, r ∈ register cfg e) := by
  intro es
  induction es with
  | nil => simp [registerList]
  | cons e es ih => simp [registerList, ih]

mutual

theorem register_size_ge (cfg : Config) (node : FsNode) :
    ∀ r ∈ register cfg node, cfg.min_size ≤ r.size := by
  cases node with
  | symlink => simp [register]
  | file d sz =>
    by_cases h : cfg.min_size ≤ sz
    · intro r hr
      simp [register, h] at hr
      simp [hr, h]
    · simp [register, h]
  | dir d es =>
    intro r hr
    rw [show register cfg (FsNode.dir d es) = registerList cfg es from rfl] at hr
    exact registerList_size_ge cfg es r hr

theorem registerList_size_ge (cfg : Config) (es : List FsNode) :
    ∀ r ∈ registerList cfg es, cfg.min_size ≤ r.size := by
  cases es with
  | nil => simp [registerList]
  | cons e es =>
    intro r hr
    rw [show registerList cfg (e :: es) = register cfg e ++ registerList cfg es from rfl] at hr
    rcases List.mem_append.mp hr with h | h
    · exact register_size_ge cfg e r h
    · exact registerList_size_ge cfg es r h

end

/-- C7: a regular file is registered for deduplication exactly when its size
is at least the effective minimum size; the effective minimum size is always
at least 1 (a missing option defaults to 1 and a configured 0 is raised
to 1); a symlink is never registered; and no record below the minimum size
ever enters the registry through any walk, so such files are never candidates
for removal, linking or content comparison. -/
theorem c7_min_size_eligibility :
    (∀ v : Option Nat, 1 ≤ effective_min_size v) ∧
    effective_min_size none = 1 ∧ effective_min_size (some 0) = 1 ∧
    (∀ v, 2 ≤ v → effective_min_size (some v) = v) ∧
    (∀ (cfg : Config) (d sz : Nat),
      (FileRec.mk d sz ∈ register cfg (FsNode.file d sz) ↔ cfg.min_size ≤ sz)) ∧
    (∀ (cfg : Config) (d sz : Nat), sz < cfg.min_size →
      register cfg (FsNode.file d sz) = []) ∧
    (∀ cfg : Config, register cfg FsNode.symlink = []) ∧
    (∀ (cfg : Config) (node : FsNode) (r : FileRec),
      r ∈ register cfg node → cfg.min_size ≤ r.size) := by
  refine ⟨?_, rfl, rfl, ?_, ?_, ?_, ?_, ?_⟩
  · intro v
    cases v with
    | none => simp [effective_min_size]
    | some v =>
      simp only [effective_min_size]
      split <;> omega
  · intro v hv
    simp only [effective_min_size]
    split <;> omega
  · intro cfg d sz
    by_cases h : cfg.min_size ≤ sz <;> simp [register, h]
  · intro cfg d sz h
    simp [register, Nat.not_le.mpr h]
  · intro cfg
    simp [register]
  · intro cfg node r hr
    exact register_size_ge cfg node r hr

/-- C7 witness: with a configured minimum size of 10, a 5-byte file is not
registered and a 10-byte file is. -/
theorem c7_witness :
    (2 ≤ 10 ∧ effective_min_size (some 10) = 10) ∧
    register ⟨false, 10⟩ (FsNode.file 0 5) = [] ∧
    (FileRec.mk 0 10 ∈ register ⟨false, 10⟩ (FsNode.file 0 10)) :=
  ⟨⟨by decide, c7_min_size_eligibility.2.2.2.1 10 (by decide)⟩,
   c7_min_size_eligibility.2.2.2.2.2.1 ⟨false, 10⟩ 0 5 (by decide),
   (c7_min_size_eligibility.2.2.2.2.1 ⟨false, 10⟩ 0 10).mpr (by decide)⟩

/-! ### Characterization of the `hardlink` transaction -/

theorem hardlink_remove_fail (o : Oracle) (keep replace : PWMD) (fs : FS)
    (h : ¬ (o.removeOk replace.path = true ∧ (fs.links replace.path).isSome = true)) :
    hardlink o keep replace fs = (none, fs, []) := by
  rw [hardlink]
  rcases Decidable.not_and_iff_or_not.mp h with h1 | h1
  · simp [tryRemove, h1]
  · have hnone : fs.links replace.path = none := by
      cases hl : fs.links replace.path with
      | none => rfl
      | some i => simp [hl] at h1
    simp [tryRemove, FS.removeFile, hnone]

theorem hardlink_link_ok (o : Oracle) (keep replace : PWMD) (fs : FS)
    (ik ir : Ino) (hk : fs.links keep.path = some ik)
    (hir : fs.links replace.path = some ir)
    (hne : replace.path ≠ keep.path)
    (ho : o.removeOk replace.path = true)
    (hl : o.linkOk replace.path = true) :
    (hardlink o keep replace fs).1 =
      (if o.resetOk replace.path = true then some ⟨replace.path, ik⟩ else none) ∧
    (∀ q, (hardlink o keep replace fs).2.1.links q =
      if q = replace.path then some ik else fs.links q) ∧
    (hardlink o keep replace fs).2.1.content = fs.content ∧
    (hardlink o keep replace fs).2.1.nextIno = fs.nextIno ∧
    (hardlink o keep replace fs).2.2 =
      [Ev.removeEv replace.path, Ev.linkEv keep.path replace.path] := by
  have hkne : ¬ (keep.path = replace.path) := fun h => hne h.symm
  rw [hardlink]
  simp only [tryRemove, ho, if_true, FS.removeFile, hir]
  simp only [tryLink, hl, if_true, FS.hardLink, hkne, ite_false, ite_true, hk,
    if_false, if_true]
  cases hrst : o.resetOk replace.path with
  | false =>
    simp only [hrst]
    refine ⟨by simp, fun q => ?_, by trivial, by trivial, by trivial⟩
    by_cases h : q = replace.path <;> simp [h]
  | true =>
    simp only [hrst]
    refine ⟨by simp, fun q => ?_, by trivial, by trivial, by trivial⟩
    by_cases h : q = replace.path <;> simp [h]

theorem hardlink_copy_ok (o : Oracle) (keep replace : PWMD) (fs : FS)
    (ik ir : Ino) (hk : fs.links keep.path = some ik)
    (hir : fs.links replace.path = some ir)
    (hne : replace.path ≠ keep.path)
    (ho : o.removeOk replace.path = true)
    (hl : o.linkOk replace.path = false)
    (hc : o.copyOk replace.path = true) :
    (hardlink o keep replace fs).1 = none ∧
    (∀ q, (hardlink o keep replace fs).2.1.links q =
      if q = replace.path then some fs.nextIno else fs.links q) ∧
    (∀ n, (hardlink o keep replace fs).2.1.content n =
      if n = fs.nextIno then fs.content ik else fs.content n) ∧
    (hardlink o keep replace fs).2.1.nextIno = fs.nextIno + 1 ∧
    (hardlink o keep replace fs).2.2 =
      [Ev.removeEv replace.path, Ev.copyEv keep.path replace.path] := by
  have hkne : ¬ (keep.path = replace.path) := fun h => hne h.symm
  rw [hardlink]
  simp only [tryRemove, ho, if_true, FS.removeFile, hir]
  simp only [tryLink, hl, Bool.false_eq_true, if_false]
  simp only [tryCopy, hc, if_true, FS.copyFile, hkne, ite_false, ite_true, hk,
    if_false, if_true]
  refine ⟨by trivial, fun q => ?_, fun n => by trivial, by trivial, by trivial⟩
  by_cases h : q = replace.path <;> simp [h]

theorem hardlink_double_fail (o : Oracle) (keep replace : PWMD) (fs : FS)
    (ik ir : Ino) (hk : fs.links keep.path = some ik)
    (hir : fs.links replace.path = some ir)
    (hne : replace.path ≠ keep.path)
    (ho : o.removeOk replace.path = true)
    (hl : o.linkOk replace.path = false)
    (hc : o.copyOk replace.path = false) :
    (hardlink o keep replace fs).1 = none ∧
    (∀ q, (hardlink o keep replace fs).2.1.links q =
      if q = replace.path then none else fs.links q) ∧
    (hardlink o keep replace fs).2.1.content = fs.content ∧
    (hardlink o keep replace fs).2.1.nextIno = fs.nextIno ∧
    (hardlink o keep replace fs).2.2 = [Ev.removeEv replace.path] := by
  rw [hardlink]
  simp only [tryRemove, ho, if_true, FS.removeFile, hir]
  simp only [tryLink, hl, Bool.false_eq_true, if_false]
  simp only [tryCopy, hc, Bool.false_eq_true, if_false]
  simp

/-! ### C4 -/

/-- C4: the hardlink transaction removes the replace path first (and performs
nothing at all when the removal fails), then links the replace path to the
keep inode; the byte-copy fallback is attempted exactly when the link
creation fails; the keep path and its inode contents are never modified; and
on success the replace record is refreshed by re-reading the now shared
inode. -/
theorem c4_hardlink_transaction (o : Oracle) (keep replace : PWMD) (fs : FS)
    (ik : Ino) (hk : fs.links keep.path = some ik)
    (hne : replace.path ≠ keep.path) (hfr : FR fs) :
    (¬ (o.removeOk replace.path = true ∧ (fs.links replace.path).isSome = true) →
      hardlink o keep replace fs = (none, fs, [])) ∧
    (∀ ir, fs.links replace.path = some ir → o.removeOk replace.path = true →
      o.linkOk replace.path = true →
      (hardlink o keep replace fs).2.1.links replace.path = some ik ∧
      (hardlink o keep replace fs).2.1.nextIno = fs.nextIno ∧
      (hardlink o keep replace fs).2.2 =
        [Ev.removeEv replace.path, Ev.linkEv keep.path replace.path] ∧
      (o.resetOk replace.path = true →
        (hardlink o keep replace fs).1 = some ⟨replace.path, ik⟩)) ∧
    (∀ ir, fs.links replace.path = some ir → o.removeOk replace.path = true →
      o.linkOk replace.path = false → o.copyOk replace.path = true →
      (hardlink o keep replace fs).2.1.links replace.path = some fs.nextIno ∧
      (hardlink o keep replace fs).2.1.content fs.nextIno = fs.content ik ∧
      (hardlink o keep replace fs).2.2 =
        [Ev.removeEv replace.path, Ev.copyEv keep.path replace.path] ∧
      (hardlink o keep replace fs).1 = none) ∧
    ((hardlink o keep replace fs).2.1.links keep.path = fs.links keep.path ∧
     (hardlink o keep replace fs).2.1.content ik = fs.content ik) ∧
    (∀ r2, (hardlink o keep replace fs).1 = some r2 →
      r2.path = replace.path ∧ r2.cachedIno = ik ∧
      (hardlink o keep replace fs).2.1.links replace.path = some ik) := by
  have hkne : ¬ (keep.path = replace.path) := fun h => hne h.symm
  refine ⟨fun h => hardlink_remove_fail o keep replace fs h, ?_, ?_, ?_, ?_⟩
  · intro ir hir ho hl
    obtain ⟨h1, h2, _, h4, h5⟩ := hardlink_link_ok o keep replace fs ik ir hk hir hne ho hl
    refine ⟨by rw [h2]; simp, h4, h5, fun hrst => ?_⟩
    rw [h1, if_pos hrst]
  · intro ir hir ho hl hc
    obtain ⟨h1, h2, h3, _, h5⟩ := hardlink_copy_ok o keep replace fs ik ir hk hir hne ho hl hc
    exact ⟨by rw [h2]; simp, by rw [h3]; simp, h5, h1⟩
  · by_cases ho : o.removeOk replace.path = true
    · cases hir : fs.links replace.path with
      | none =>
        rw [hardlink_remove_fail o keep replace fs (by simp [hir])]
        exact ⟨rfl, rfl⟩
      | some ir =>
        have hiklt : ik < fs.nextIno := hfr keep.path ik hk
        cases hl : o.linkOk replace.path with
        | true =>
          obtain ⟨_, h2, h3, _, _⟩ := hardlink_link_ok o keep replace fs ik ir hk hir hne ho hl
          rw [h2 keep.path, h3, if_neg hkne]
          exact ⟨rfl, rfl⟩
        | false =>
          cases hc : o.copyOk replace.path with
          | true =>
            obtain ⟨_, h2, h3, _, _⟩ := hardlink_copy_ok o keep replace fs ik ir hk hir hne ho hl hc
            rw [h2 keep.path, h3 ik, if_neg hkne,
              if_neg (Nat.ne_of_lt hiklt)]
            exact ⟨rfl, rfl⟩
          | false =>
            obtain ⟨_, h2, h3, _, _⟩ := hardlink_double_fail o keep replace fs ik ir hk hir hne ho hl hc
            rw [h2 keep.path, h3, if_neg hkne]
            exact ⟨rfl, rfl⟩
    · rw [hardlink_remove_fail o keep replace fs (fun h => ho h.1)]
      exact ⟨rfl, rfl⟩
  · intro r2 hr2
    by_cases ho : o.removeOk replace.path = true
    · cases hir : fs.links replace.path with
      | none =>
        rw [hardlink_remove_fail o keep replace fs (by simp [hir])] at hr2
        exact absurd hr2 (by simp)
      | some ir =>
        cases hl : o.linkOk replace.path with
        | true =>
          obtain ⟨h1, h2, _, _, _⟩ := hardlink_link_ok o keep replace fs ik ir hk hir hne ho hl
          rw [h1] at hr2
          by_cases hrst : o.resetOk replace.path = true
          · rw [if_pos hrst] at hr2
            cases hr2
            exact ⟨rfl, rfl, by rw [h2]; simp⟩
          · rw [if_neg hrst] at hr2
            exact absurd hr2 (by simp)
        | false =>
          cases hc : o.copyOk replace.path with
          | true =>
            obtain ⟨h1, _, _, _, _⟩ := hardlink_copy_ok o keep replace fs ik ir hk hir hne ho hl hc
            rw [h1] at hr2
            exact absurd hr2 (by simp)
          | false =>
            obtain ⟨h1, _, _, _, _⟩ := hardlink_double_fail o keep replace fs ik ir hk hir hne ho hl hc
            rw [h1] at hr2
            exact absurd hr2 (by simp)
    · rw [hardlink_remove_fail o keep replace fs (fun h => ho h.1)] at hr2
      exact absurd hr2 (by simp)

/-- C4 witness: the transaction applied with the all-success oracle to
concrete records on the example filesystem; path 1 ends up linked to the keep
inode 20, with the keep path untouched and the record refreshed. -/
theorem c4_witness :
    (exFS.links 2 = some 20 ∧ (1 : FPath) ≠ 2 ∧ FR exFS) ∧
    ((hardlink allOk ⟨2, 20⟩ ⟨1, 10⟩ exFS).2.1.links 2 = exFS.links 2 ∧
     (hardlink allOk ⟨2, 20⟩ ⟨1, 10⟩ exFS).2.1.content 20 = exFS.content 20) ∧
    ((hardlink allOk ⟨2, 20⟩ ⟨1, 10⟩ exFS).2.1.links 1 = some 20 ∧
     (hardlink allOk ⟨2, 20⟩ ⟨1, 10⟩ exFS).2.1.nextIno = exFS.nextIno ∧
     (hardlink allOk ⟨2, 20⟩ ⟨1, 10⟩ exFS).2.2 = [Ev.removeEv 1, Ev.linkEv 2 1] ∧
     (allOk.resetOk 1 = true → (hardlink allOk ⟨2, 20⟩ ⟨1, 10⟩ exFS).1 = some ⟨1, 20⟩)) := by
  have hfr : FR exFS := by
    intro p i h
    simp only [exFS] at h
    split at h
    · cases h; decide
    · split at h
      · cases h; decide
      · split at h
        · cases h; decide
        · cases h
  refine ⟨⟨rfl, by decide, hfr⟩, ?_, ?_⟩
  · exact (c4_hardlink_transaction allOk ⟨2, 20⟩ ⟨1, 10⟩ exFS 20 rfl (by decide) hfr).2.2.2.1
  · exact (c4_hardlink_transaction allOk ⟨2, 20⟩ ⟨1, 10⟩ exFS 20 rfl (by decide) hfr).2.1 10 rfl rfl rfl

/-! ### Characterization of `get2mut` and the merge loop shape -/

theorem get2mut_isSome {α : Type} (v : List α) (i j : Nat) :
    (get2mut v i j).isSome = true ↔ (i < j ∧ j < v.length) := by
  rw [get2mut]
  by_cases h1 : j > v.length
  · simp only [h1, if_true]
    simp
    omega
  · simp only [h1, if_false]
    by_cases hij : i < j
    · by_cases hjlt : j < v.length
      · have hi : i < v.length := by omega
        have h2 : (v.take j).get? i = some (v.get ⟨i, hi⟩) := by
          rw [List.get?_take hij]
          exact List.get?_eq_get hi
        have h3 : (v.drop j).get? 0 = some (v.get ⟨j, hjlt⟩) := by
          rw [List.get?_drop]
          rw [Nat.add_zero]
          exact List.get?_eq_get hjlt
        rw [h2, h3]
        simp [hij, hjlt]
      · have h3 : (v.drop j).get? 0 = none := by
          rw [List.get?_drop]
          exact List.get?_eq_none.mpr (by omega)
        rw [h3]
        cases h2 : (v.take j).get? i <;> simp [hjlt]
    · have h2 : (v.take j).get? i = none := by
        apply List.get?_eq_none.mpr
        simp only [List.length_take]
        omega
      rw [h2]
      cases h3 : (v.drop j).get? 0 <;> simp [hij]

theorem get2mut_eq {α : Type} (d : α) (v : List α) (i j : Nat)
    (hij : i < j) (hj : j < v.length) :
    get2mut v i j = some (v.getD i d, v.getD j d) := by
  rw [get2mut]
  have h1 : ¬ j > v.length := by omega
  have hi : i < v.length := by omega
  have h2 : (v.take j).get? i = some (v.getD i d) := by
    rw [List.get?_take hij, List.get?_eq_get hi]
    simp [List.get_eq_getElem, List.getD_eq_getElem?_getD, List.getElem?_eq_getElem hi]
  have h3 : (v.drop j).get? 0 = some (v.getD j d) := by
    rw [List.get?_drop, Nat.add_zero, List.get?_eq_get hj]
    simp [List.get_eq_getElem, List.getD_eq_getElem?_getD, List.getElem?_eq_getElem hj]
  simp only [h1, if_false, h2, h3]

theorem swapRemove_length (v : List (List PWMD)) (j : Nat) :
    (swapRemove v j).length = v.length - 1 := by
  simp [swapRemove]

theorem mergeLoop_eq_merged (o : Oracle) (cfg : Config) (v : List (List PWMD))
    (i j : Nat) (fs : FS) (hi : i < v.length) (hj : j < v.length)
    (keeps replaces : List PWMD) (hg : get2mut v i j = some (keeps, replaces))
    (hres : (hardlink_all o cfg keeps replaces fs).1 = true) :
    mergeLoop o cfg v i j fs =
      ((mergeLoop o cfg
          (swapRemove (v.set i (hardlink_all o cfg keeps replaces fs).2.1) j) i j
          (hardlink_all o cfg keeps replaces fs).2.2.1).1,
       (mergeLoop o cfg
          (swapRemove (v.set i (hardlink_all o cfg keeps replaces fs).2.1) j) i j
          (hardlink_all o cfg keeps replaces fs).2.2.1).2.1,
       (hardlink_all o cfg keeps replaces fs).2.2.2 ++
       (mergeLoop o cfg
          (swapRemove (v.set i (hardlink_all o cfg keeps replaces fs).2.1) j) i j
          (hardlink_all o cfg keeps replaces fs).2.2.1).2.2) := by
  rw [mergeLoop]
  simp only [hi, hj, dif_pos, hg, hres, if_true]

theorem mergeLoop_eq_unmerged (o : Oracle) (cfg : Config) (v : List (List PWMD))
    (i j : Nat) (fs : FS) (hi : i < v.length) (hj : j < v.length)
    (keeps replaces : List PWMD) (hg : get2mut v i j = some (keeps, replaces))
    (hres : ¬ (hardlink_all o cfg keeps replaces fs).1 = true) :
    mergeLoop o cfg v i j fs =
      ((mergeLoop o cfg (v.set i (hardlink_all o cfg keeps replaces fs).2.1) i
          (j + 1) (hardlink_all o cfg keeps replaces fs).2.2.1).1,
       (mergeLoop o cfg (v.set i (hardlink_all o cfg keeps replaces fs).2.1) i
          (j + 1) (hardlink_all o cfg keeps replaces fs).2.2.1).2.1,
       (hardlink_all o cfg keeps replaces fs).2.2.2 ++
       (mergeLoop o cfg (v.set i (hardlink_all o cfg keeps replaces fs).2.1) i
          (j + 1) (hardlink_all o cfg keeps replaces fs).2.2.1).2.2) := by
  rw [mergeLoop]
  simp only [hi, hj, dif_pos, hg, hres, if_false]
  rfl

theorem mergeLoop_eq_inner_done (o : Oracle) (cfg : Config)
    (v : List (List PWMD)) (i j : Nat) (fs : FS) (hi : i < v.length)
    (hj : ¬ j < v.length) :
    mergeLoop o cfg v i j fs = mergeLoop o cfg v (i + 1) (i + 2) fs := by
  rw [mergeLoop]
  simp [hi, hj]

theorem mergeLoop_eq_outer_done (o : Oracle) (cfg : Config)
    (v : List (List PWMD)) (i j : Nat) (fs : FS) (hi : ¬ i < v.length) :
    mergeLoop o cfg v i j fs = (v, fs, []) := by
  rw [mergeLoop]
  simp [hi]

/-! ### Trace and dry-run lemmas -/

theorem hardlink_trace (o : Oracle) (keep replace : PWMD) (fs : FS) :
    ∀ e ∈ (hardlink o keep replace fs).2.2,
      e = Ev.removeEv replace.path ∨ e = Ev.linkEv keep.path replace.path ∨
      e = Ev.copyEv keep.path replace.path := by
  intro e he
  rw [hardlink] at he
  split at he
  · simp at he
  · split at he
    · split at he <;> simp_all <;> tauto
    · split at he <;> simp_all <;> tauto

theorem hardlinkMembers_dry (o : Oracle) (cfg : Config) (hd : cfg.dry_run = true) :
    ∀ (rs ks : List PWMD) (fs : FS),
      hardlinkMembers o cfg rs ks fs = (ks ++ rs, fs, []) := by
  intro rs
  induction rs with
  | nil => intro ks fs; simp [hardlinkMembers]
  | cons r rs ih =>
    intro ks fs
    rw [hardlinkMembers, if_pos hd, ih]
    simp

theorem hardlink_all_dry (o : Oracle) (cfg : Config) (hd : cfg.dry_run = true)
    (keeps replaces : List PWMD) (fs : FS) :
    (hardlink_all o cfg keeps replaces fs).2.2.1 = fs ∧
    ∀ e ∈ (hardlink_all o cfg keeps replaces fs).2.2.2, isMut e = false := by
  simp only [hardlink_all]
  split
  · rw [hardlinkMembers_dry o cfg hd]
    exact ⟨rfl, by intro e he; simp at he; simp [he, isMut]⟩
  · exact ⟨rfl, by intro e he; simp at he; simp [he, isMut]⟩

theorem mergeLoop_ind (o : Oracle) (cfg : Config)
    (motive : List (List PWMD) → Nat → Nat → FS → Prop)
    (case1 : ∀ v i j fs, i < v.length → j < v.length →
      get2mut v i j = none → motive v i j fs)
    (case2 : ∀ v i j fs, i < v.length → j < v.length → ∀ keeps replaces,
      get2mut v i j = some (keeps, replaces) →
      (hardlink_all o cfg keeps replaces fs).1 = true →
      motive (swapRemove (v.set i (hardlink_all o cfg keeps replaces fs).2.1) j)
        i j (hardlink_all o cfg keeps replaces fs).2.2.1 →
      motive v i j fs)
    (case3 : ∀ v i j fs, i < v.length → j < v.length → ∀ keeps replaces,
      get2mut v i j = some (keeps, replaces) →
      ¬ (hardlink_all o cfg keeps replaces fs).1 = true →
      motive (v.set i (hardlink_all o cfg keeps replaces fs).2.1) i (j + 1)
        (hardlink_all o cfg keeps replaces fs).2.2.1 →
      motive v i j fs)
    (case4 : ∀ v i j fs, i < v.length → ¬ j < v.length →
      motive v (i + 1) (i + 2) fs → motive v i j fs)
    (case5 : ∀ v i j fs, ¬ i < v.length → motive v i j fs) :
    ∀ v i j fs, motive v i j fs :=
  mergeLoop.induct o cfg motive case1 case2 case3 case4 case5

theorem hardlinkMembers_no_panic (o : Oracle) (cfg : Config) :
    ∀ (rs ks : List PWMD) (fs : FS),
      Ev.panicEv ∉ (hardlinkMembers o cfg rs ks fs).2.2 := by
  intro rs
  induction rs with
  | nil => intro ks fs; simp [hardlinkMembers]
  | cons r rs ih =>
    intro ks fs
    rw [hardlinkMembers]
    split
    · exact ih (ks ++ [r]) fs
    · rcases hres : hardlink o (ks.headD default) r fs with ⟨or2, fs2, evs⟩
      have htr := hardlink_trace o (ks.headD default) r fs
      rw [hres] at htr
      cases or2 with
      | some r2 =>
        simp only [hres]
        intro hmem
        rcases List.mem_append.mp hmem with h | h
        · rcases htr Ev.panicEv h with h1 | h1 | h1 <;> simp at h1
        · exact ih (ks ++ [r2]) fs2 h
      | none =>
        simp only [hres]
        intro hmem
        rcases List.mem_append.mp hmem with h | h
        · rcases htr Ev.panicEv h with h1 | h1 | h1 <;> simp at h1
        · exact ih ks fs2 h

theorem hardlink_all_no_panic (o : Oracle) (cfg : Config)
    (keeps replaces : List PWMD) (fs : FS) :
    Ev.panicEv ∉ (hardlink_all o cfg keeps replaces fs).2.2.2 := by
  simp only [hardlink_all]
  split
  · intro hmem
    rcases List.mem_cons.mp hmem with h | h
    · simp at h
    · exact hardlinkMembers_no_panic o cfg replaces keeps fs h
  · simp

theorem mergeLoop_no_panic (o : Oracle) (cfg : Config) :
    ∀ (v : List (List PWMD)) (i j : Nat) (fs : FS), i < j →
      Ev.panicEv ∉ (mergeLoop o cfg v i j fs).2.2 := by
  intro v i j fs
  induction v, i, j, fs using mergeLoop_ind o cfg with
  | case1 v i j fs hi hj hg =>
    intro hij
    have hs := (get2mut_isSome v i j).mpr ⟨hij, hj⟩
    rw [hg] at hs
    simp at hs
  | case2 v i j fs hi hj keeps replaces hg hres ih =>
    intro hij
    rw [mergeLoop_eq_merged o cfg v i j fs hi hj keeps replaces hg hres]
    intro hmem
    rcases List.mem_append.mp hmem with h | h
    · exact hardlink_all_no_panic o cfg keeps replaces fs h
    · exact ih hij h
  | case3 v i j fs hi hj keeps replaces hg hres ih =>
    intro hij
    rw [mergeLoop_eq_unmerged o cfg v i j fs hi hj keeps replaces hg hres]
    intro hmem
    rcases List.mem_append.mp hmem with h | h
    · exact hardlink_all_no_panic o cfg keeps replaces fs h
    · exact ih (by omega) h
  | case4 v i j fs hi hj ih =>
    intro _
    rw [mergeLoop_eq_inner_done o cfg v i j fs hi hj]
    exact ih (by omega)
  | case5 v i j fs hi =>
    intro _
    rw [mergeLoop_eq_outer_done o cfg v i j fs hi]
    simp

theorem mergeLoop_dry (o : Oracle) (cfg : Config) (hd : cfg.dry_run = true) :
    ∀ (v : List (List PWMD)) (i j : Nat) (fs : FS),
      (mergeLoop o cfg v i j fs).2.1 = fs ∧
      ∀ e ∈ (mergeLoop o cfg v i j fs).2.2, isMut e = false := by
  intro v i j fs
  induction v, i, j, fs using mergeLoop_ind o cfg with
  | case1 v i j fs hi hj hg =>
    rw [mergeLoop]
    simp only [hi, hj, dif_pos, hg]
    exact ⟨by simp, by intro e he; simp at he; simp [he, isMut]⟩
  | case2 v i j fs hi hj keeps replaces hg hres ih =>
    rw [mergeLoop_eq_merged o cfg v i j fs hi hj keeps replaces hg hres]
    obtain ⟨ha, hb⟩ := hardlink_all_dry o cfg hd keeps replaces fs
    refine ⟨by rw [ih.1, ha], ?_⟩
    intro e he
    rcases List.mem_append.mp he with h | h
    · exact hb e h
    · exact ih.2 e h
  | case3 v i j fs hi hj keeps replaces hg hres ih =>
    rw [mergeLoop_eq_unmerged o cfg v i j fs hi hj keeps replaces hg hres]
    obtain ⟨ha, hb⟩ := hardlink_all_dry o cfg hd keeps replaces fs
    refine ⟨by rw [ih.1, ha], ?_⟩
    intro e he
    rcases List.mem_append.mp he with h | h
    · exact hb e h
    · exact ih.2 e h
  | case4 v i j fs hi hj ih =>
    rw [mergeLoop_eq_inner_done o cfg v i j fs hi hj]
    exact ih
  | case5 v i j fs hi =>
    rw [mergeLoop_eq_outer_done o cfg v i j fs hi]
    simp

/-! ### C5 -/

/-- C5: with `dry_run` set, a run over any list of size buckets leaves the
filesystem state exactly as it was, and the event trace contains no remove,
link or copy operation (only read-only content comparisons occur). -/
theorem c5_dry_run (o : Oracle) (cfg : Config) (buckets : List (List PWMD))
    (fs : FS) (hd : cfg.dry_run = true) :
    (runBuckets o cfg buckets fs).1 = fs ∧
    ∀ e ∈ (runBuckets o cfg buckets fs).2, isMut e = false := by
  induction buckets generalizing fs with
  | nil => simp [runBuckets]
  | cons b rest ih =>
    rw [runBuckets]
    simp only [run_one_size]
    obtain ⟨ha, hb⟩ := mergeLoop_dry o cfg hd (buildByInode b) 0 1 fs
    obtain ⟨hc, hdd⟩ := ih ((mergeLoop o cfg (buildByInode b) 0 1 fs).2.1)
    refine ⟨by rw [hc, ha], ?_⟩
    intro e he
    rcases List.mem_append.mp he with h | h
    · exact hb e h
    · exact hdd e h

/-- C5 witness: a dry run over a concrete bucket on the example filesystem
returns the filesystem unchanged with a mutation-free trace. -/
theorem c5_witness :
    (Config.mk true 1).dry_run = true ∧
    ((runBuckets allOk ⟨true, 1⟩ [[⟨1, 10⟩, ⟨2, 20⟩, ⟨3, 30⟩]] exFS).1 = exFS ∧
     ∀ e ∈ (runBuckets allOk ⟨true, 1⟩ [[⟨1, 10⟩, ⟨2, 20⟩, ⟨3, 30⟩]] exFS).2,
       isMut e = false) :=
  ⟨rfl, c5_dry_run allOk ⟨true, 1⟩ [[⟨1, 10⟩, ⟨2, 20⟩, ⟨3, 30⟩]] exFS rfl⟩

/-! ### C10 -/

/-- C10: `get2mut` returns a pair (two distinct mutable references in the
original) exactly under the precondition `i < j < v.length`, in which case
the two components are the elements at `i` and `j`; and the merge loop
maintains `i < j` from its sole call site (which starts at `j = i + 1`), so
the split and the two indexings never go out of bounds: the panic marker is
unreachable for every oracle, configuration, bucket and filesystem. -/
theorem c10_get2mut_bounds :
    (∀ (v : List (List PWMD)) (i j : Nat),
      (get2mut v i j).isSome = true ↔ (i < j ∧ j < v.length)) ∧
    (∀ (v : List (List PWMD)) (i j : Nat), i < j → j < v.length →
      get2mut v i j = some (v.getD i [], v.getD j [])) ∧
    (∀ (v : List (List PWMD)) (i j : Nat) (p : List PWMD × List PWMD),
      get2mut v i j = some p → i ≠ j) ∧
    (∀ (o : Oracle) (cfg : Config) (v : List (List PWMD)) (i j : Nat) (fs : FS),
      i < j → Ev.panicEv ∉ (mergeLoop o cfg v i j fs).2.2) ∧
    (∀ (o : Oracle) (cfg : Config) (pwmds : List PWMD) (fs : FS),
      Ev.panicEv ∉ (run_one_size o cfg pwmds fs).2.2) := by
  refine ⟨fun v i j => get2mut_isSome v i j,
    fun v i j hij hj => get2mut_eq [] v i j hij hj, ?_, ?_, ?_⟩
  · intro v i j p hp
    have := (get2mut_isSome v i j).mp (by rw [hp]; rfl)
    omega
  · exact fun o cfg v i j fs hij => mergeLoop_no_panic o cfg v i j fs hij
  · intro o cfg pwmds fs
    exact mergeLoop_no_panic o cfg (buildByInode pwmds) 0 1 fs (by omega)

/-- C10 witness: the bounds characterization applied at concrete indices and
the panic-freedom of the loop on a concrete worklist. -/
theorem c10_witness :
    (0 < 1 ∧ 1 < ([[⟨1, 10⟩], [⟨2, 20⟩]] : List (List PWMD)).length) ∧
    get2mut [[(⟨1, 10⟩ : PWMD)], [⟨2, 20⟩]] 0 1 = some ([⟨1, 10⟩], [⟨2, 20⟩]) ∧
    Ev.panicEv ∉ (mergeLoop allOk ⟨false, 1⟩ [[⟨1, 10⟩], [⟨2, 20⟩]] 0 1 exFS).2.2 :=
  ⟨⟨by decide, by decide⟩,
   c10_get2mut_bounds.2.1 [[⟨1, 10⟩], [⟨2, 20⟩]] 0 1 (by decide) (by decide),
   c10_get2mut_bounds.2.2.2.1 allOk ⟨false, 1⟩ [[⟨1, 10⟩], [⟨2, 20⟩]] 0 1 exFS (by decide)⟩

/-! ### Evaluation of a two-cluster worklist -/

theorem hardlink_all_pair (o : Oracle) (cfg : Config) (hdry : cfg.dry_run = false)
    (k r : PWMD) (fs : FS)
    (hcmp : (cmp o fs r.path k.path).getD false = true) :
    hardlink_all o cfg [k] [r] fs =
      (true,
       (match (hardlink o k r fs).1 with
        | some r2 => [k, r2]
        | none => [k]),
       (hardlink o k r fs).2.1,
       Ev.cmpEv r.path k.path :: (hardlink o k r fs).2.2) := by
  simp only [hardlink_all, List.headD]
  rw [if_pos hcmp]
  rw [show hardlinkMembers o cfg [r] [k] fs =
      ((match (hardlink o k r fs).1 with
        | some r2 => [k, r2]
        | none => [k]),
       (hardlink o k r fs).2.1, (hardlink o k r fs).2.2) by
    rw [hardlinkMembers]
    rw [if_neg (by simp [hdry])]
    simp only [List.headD]
    rcases hhl : hardlink o k r fs with ⟨or, fs2, evs⟩
    cases or with
    | some r2 => simp [hardlinkMembers]
    | none => simp [hardlinkMembers]]

theorem mergeLoop_pair (o : Oracle) (cfg : Config) (hdry : cfg.dry_run = false)
    (k r : PWMD) (fs : FS)
    (hcmp : (cmp o fs r.path k.path).getD false = true) :
    mergeLoop o cfg [[k], [r]] 0 1 fs =
      ([(match (hardlink o k r fs).1 with
         | some r2 => [k, r2]
         | none => [k])],
       (hardlink o k r fs).2.1,
       Ev.cmpEv r.path k.path :: (hardlink o k r fs).2.2) := by
  have hpair := hardlink_all_pair o cfg hdry k r fs hcmp
  have hg : get2mut [[k], [r]] 0 1 = some ([k], [r]) := by
    simpa using get2mut_eq [] [[k], [r]] 0 1 (by omega) (by simp)
  have hres : (hardlink_all o cfg [k] [r] fs).1 = true := by rw [hpair]
  have hfs : (hardlink_all o cfg [k] [r] fs).2.2.1 = (hardlink o k r fs).2.1 := by
    rw [hpair]
  have hevs : (hardlink_all o cfg [k] [r] fs).2.2.2 =
      Ev.cmpEv r.path k.path :: (hardlink o k r fs).2.2 := by rw [hpair]
  rcases hor : (hardlink o k r fs).1 with _ | r2
  · have hks : (hardlink_all o cfg [k] [r] fs).2.1 = [k] := by rw [hpair, hor]
    rw [mergeLoop_eq_merged o cfg [[k], [r]] 0 1 fs (by simp) (by simp) [k] [r] hg hres,
      hks, hfs, hevs]
    rw [show swapRemove ([[k], [r]].set 0 [k]) 1 = [[k]] from rfl]
    rw [mergeLoop_eq_inner_done o cfg [[k]] 0 1 _ (by simp) (by simp),
      mergeLoop_eq_outer_done o cfg [[k]] 1 2 _ (by simp)]
    simp
  · have hks : (hardlink_all o cfg [k] [r] fs).2.1 = [k, r2] := by rw [hpair, hor]
    rw [mergeLoop_eq_merged o cfg [[k], [r]] 0 1 fs (by simp) (by simp) [k] [r] hg hres,
      hks, hfs, hevs]
    rw [show swapRemove ([[k], [r]].set 0 [k, r2]) 1 = [[k, r2]] from rfl]
    rw [mergeLoop_eq_inner_done o cfg [[k, r2]] 0 1 _ (by simp) (by simp),
      mergeLoop_eq_outer_done o cfg [[k, r2]] 1 2 _ (by simp)]
    simp

/-! ### List helper lemmas -/

theorem headD_append {α : Type} [Inhabited α] (ks l : List α) (hne : ks ≠ []) :
    (ks ++ l).headD default = ks.headD default := by
  cases ks with
  | nil => exact absurd rfl hne
  | cons a as => rfl

theorem headD_mem {α : Type} [Inhabited α] (l : List α) (hne : l ≠ []) :
    l.headD default ∈ l := by
  cases l with
  | nil => exact absurd rfl hne
  | cons a as => simp [List.headD]

theorem set_at_append {α : Type} (A : List α) (x : α) (R : List α) (y : α) :
    (A ++ x :: R).set A.length y = A ++ y :: R := by
  induction A with
  | nil => rfl
  | cons a as ih => simp [List.set, ih]

theorem eraseIdx_at_append {α : Type} (A : List α) (x : α) (R : List α) :
    (A ++ x :: R).eraseIdx A.length = A ++ R := by
  induction A with
  | nil => rfl
  | cons a as ih => simp [List.eraseIdx, ih]

theorem swapRemove_perm (v : List (List PWMD)) (j : Nat) (hj : j < v.length) :
    (swapRemove v j).Perm (v.eraseIdx j) := by
  induction v generalizing j with
  | nil => simp at hj
  | cons c cs ih =>
    cases j with
    | zero =>
      cases cs with
      | nil => simp [swapRemove]
      | cons c2 cs2 =>
        simp only [swapRemove, List.eraseIdx]
        have hlen : (c :: c2 :: cs2).length - 1 = cs2.length + 1 := by simp
        rw [hlen]
        have hget : (c :: c2 :: cs2).getD (cs2.length + 1) [] =
            (c2 :: cs2).getLast (by simp) := by
          have h1 : (c :: c2 :: cs2).getD (cs2.length + 1) [] =
              (c2 :: cs2).getD cs2.length [] := rfl
          rw [h1, List.getLast_eq_getElem]
          have h2 : cs2.length = (c2 :: cs2).length - 1 := by simp
          rw [h2]
          have h3 : (c2 :: cs2).length - 1 < (c2 :: cs2).length := by simp
          simp [List.getD_eq_getElem?_getD, List.getElem?_eq_getElem h3]
        rw [hget]
        rw [show ((c :: c2 :: cs2).set 0 ((c2 :: cs2).getLast (by simp))) =
          ((c2 :: cs2).getLast (by simp)) :: c2 :: cs2 from rfl]
        rw [show (((c2 :: cs2).getLast (by simp)) :: c2 :: cs2).dropLast =
          ((c2 :: cs2).getLast (by simp)) :: (c2 :: cs2).dropLast by simp]
        have heq : (c2 :: cs2).dropLast ++ [(c2 :: cs2).getLast (by simp)] = c2 :: cs2 :=
          List.dropLast_append_getLast (by simp)
        have hperm : (((c2 :: cs2).getLast (by simp)) :: (c2 :: cs2).dropLast).Perm
            ((c2 :: cs2).dropLast ++ [(c2 :: cs2).getLast (by simp)]) :=
          (List.perm_append_singleton _ _).symm
        rw [heq] at hperm
        exact hperm
    | succ j =>
      have hj2 : j < cs.length := by simpa using hj
      have hcs : cs ≠ [] := by
        intro h
        rw [h] at hj2
        simp at hj2
      cases cs with
      | nil => exact absurd rfl hcs
      | cons c2 cs2 =>
        simp only [swapRemove, List.eraseIdx] at ih ⊢
        have hget : (c :: c2 :: cs2).getD ((c :: c2 :: cs2).length - 1) [] =
            (c2 :: cs2).getD ((c2 :: cs2).length - 1) [] := by
          simp only [List.length_cons]
          rfl
        rw [hget]
        rw [show ((c :: c2 :: cs2).set (j + 1) ((c2 :: cs2).getD ((c2 :: cs2).length - 1) [])) =
          c :: ((c2 :: cs2).set j ((c2 :: cs2).getD ((c2 :: cs2).length - 1) [])) from rfl]
        rw [show (c :: ((c2 :: cs2).set j ((c2 :: cs2).getD ((c2 :: cs2).length - 1) []))).dropLast =
          c :: ((c2 :: cs2).set j ((c2 :: cs2).getD ((c2 :: cs2).length - 1) [])).dropLast by
            cases hset : (c2 :: cs2).set j ((c2 :: cs2).getD ((c2 :: cs2).length - 1) []) with
            | nil =>
              have := congrArg List.length hset
              simp at this
            | cons a as => simp]
        exact List.Perm.cons c (ih j hj2)

theorem mem_swapRemove (v : List (List PWMD)) (j : Nat) (c : List PWMD)
    (hc : c ∈ swapRemove v j) : c ∈ v := by
  have h1 : c ∈ v.set j (v.getD (v.length - 1) []) :=
    (List.dropLast_sublist _).subset hc
  rcases List.mem_or_eq_of_mem_set h1 with h | h
  · exact h
  · subst h
    cases v with
    | nil => simp [swapRemove] at hc
    | cons a as =>
      have hlt : (a :: as).length - 1 < (a :: as).length := by simp
      have : (a :: as).getD ((a :: as).length - 1) [] = (a :: as).get ⟨_, hlt⟩ := by
        simp [List.getD_eq_getElem?_getD, List.getElem?_eq_getElem hlt]
      rw [this]
      exact List.get_mem _ _ _

theorem memberPaths_nil : memberPaths [] = [] := rfl

theorem memberPaths_cons (c : List PWMD) (v : List (List PWMD)) :
    memberPaths (c :: v) = c.map PWMD.path ++ memberPaths v := by
  simp [memberPaths]

theorem memberPaths_append (A B : List (List PWMD)) :
    memberPaths (A ++ B) = memberPaths A ++ memberPaths B := by
  simp [memberPaths]

theorem mem_memberPaths (v : List (List PWMD)) (p : FPath) :
    p ∈ memberPaths v ↔ ∃ c ∈ v, ∃ m ∈ c, m.path = p := by
  simp only [memberPaths, List.mem_flatten, List.mem_map]
  constructor
  · rintro ⟨l, ⟨c, hc, rfl⟩, hp⟩
    rcases List.mem_map.mp hp with ⟨m, hm, rfl⟩
    exact ⟨c, hc, m, hm, rfl⟩
  · rintro ⟨c, hc, m, hm, rfl⟩
    exact ⟨c.map PWMD.path, ⟨c, hc, rfl⟩, List.mem_map.mpr ⟨m, hm, rfl⟩⟩

theorem memberPaths_perm {v w : List (List PWMD)} (h : v.Perm w) :
    (memberPaths v).Perm (memberPaths w) := by
  unfold memberPaths
  exact (h.map (fun c => c.map PWMD.path)).flatten

/-! ### Preservation and comparison lemmas -/

theorem Preserves.refl (fs : FS) : Preserves fs fs :=
  fun p i h => ⟨i, h, rfl⟩

theorem Preserves.trans {fs1 fs2 fs3 : FS} (h12 : Preserves fs1 fs2)
    (h23 : Preserves fs2 fs3) : Preserves fs1 fs3 := by
  intro p i h
  obtain ⟨i2, hl2, hc2⟩ := h12 p i h
  obtain ⟨i3, hl3, hc3⟩ := h23 p i2 hl2
  exact ⟨i3, hl3, by rw [hc3, hc2]⟩

theorem cmp_true_content (o : Oracle) (fs : FS) (p1 p2 : FPath) (i1 i2 : Ino)
    (h1 : fs.links p1 = some i1) (h2 : fs.links p2 = some i2)
    (hc : (cmp o fs p1 p2).getD false = true) :
    fs.content i1 = fs.content i2 := by
  rw [cmp] at hc
  by_cases ho : (o.openOk p1 && o.openOk p2) = true
  · rw [if_pos ho, h1, h2] at hc
    simp only [Option.getD_some] at hc
    exact (cmp_read_fileChunks_iff _ _).mp hc
  · rw [if_neg ho] at hc
    simp at hc

theorem hardlink_all_fst (o : Oracle) (cfg : Config) (keeps replaces : List PWMD)
    (fs : FS) :
    (hardlink_all o cfg keeps replaces fs).1 =
      (cmp o fs (replaces.headD default).path (keeps.headD default).path).getD false := by
  simp only [hardlink_all]
  split
  · simp_all
  · simp_all

theorem hardlink_all_components (o : Oracle) (cfg : Config)
    (keeps replaces : List PWMD) (fs : FS)
    (hcmp : (cmp o fs (replaces.headD default).path
      (keeps.headD default).path).getD false = true) :
    (hardlink_all o cfg keeps replaces fs).2.1 =
      (hardlinkMembers o cfg replaces keeps fs).1 ∧
    (hardlink_all o cfg keeps replaces fs).2.2.1 =
      (hardlinkMembers o cfg replaces keeps fs).2.1 ∧
    (hardlink_all o cfg keeps replaces fs).2.2.2 =
      Ev.cmpEv (replaces.headD default).path (keeps.headD default).path ::
        (hardlinkMembers o cfg replaces keeps fs).2.2 := by
  simp only [hardlink_all]
  rw [if_pos hcmp]
  exact ⟨rfl, rfl, rfl⟩

theorem hardlink_all_false (o : Oracle) (cfg : Config)
    (keeps replaces : List PWMD) (fs : FS)
    (hcmp : ¬ (cmp o fs (replaces.headD default).path
      (keeps.headD default).path).getD false = true) :
    hardlink_all o cfg keeps replaces fs =
      (false, keeps, fs,
        [Ev.cmpEv (replaces.headD default).path (keeps.headD default).path]) := by
  simp only [hardlink_all]
  rw [if_neg hcmp]

/-! ### Master lemma for the member loop -/

theorem hardlinkMembers_cons_some (o : Oracle) (cfg : Config)
    (hdry : cfg.dry_run = false) (r : PWMD) (rs ks : List PWMD) (fs : FS)
    (r2 : PWMD) (fs2 : FS) (evs : List Ev)
    (h : hardlink o (ks.headD default) r fs = (some r2, fs2, evs)) :
    (hardlinkMembers o cfg (r :: rs) ks fs).1 =
      (hardlinkMembers o cfg rs (ks ++ [r2]) fs2).1 ∧
    (hardlinkMembers o cfg (r :: rs) ks fs).2.1 =
      (hardlinkMembers o cfg rs (ks ++ [r2]) fs2).2.1 ∧
    (hardlinkMembers o cfg (r :: rs) ks fs).2.2 =
      evs ++ (hardlinkMembers o cfg rs (ks ++ [r2]) fs2).2.2 := by
  rw [hardlinkMembers, if_neg (by simp [hdry]), h]
  exact ⟨rfl, rfl, rfl⟩

theorem hardlinkMembers_cons_none (o : Oracle) (cfg : Config)
    (hdry : cfg.dry_run = false) (r : PWMD) (rs ks : List PWMD) (fs : FS)
    (fs2 : FS) (evs : List Ev)
    (h : hardlink o (ks.headD default) r fs = (none, fs2, evs)) :
    (hardlinkMembers o cfg (r :: rs) ks fs).1 =
      (hardlinkMembers o cfg rs ks fs2).1 ∧
    (hardlinkMembers o cfg (r :: rs) ks fs).2.1 =
      (hardlinkMembers o cfg rs ks fs2).2.1 ∧
    (hardlinkMembers o cfg (r :: rs) ks fs).2.2 =
      evs ++ (hardlinkMembers o cfg rs ks fs2).2.2 := by
  rw [hardlinkMembers, if_neg (by simp [hdry]), h]
  exact ⟨rfl, rfl, rfl⟩

theorem hardlinkMembers_master (o : Oracle) (cfg : Config) (hdry : cfg.dry_run = false) :
    ∀ (rs ks : List PWMD) (fs : FS),
    ks ≠ [] →
    fs.links (ks.headD default).path = some ((ks.headD default).cachedIno) →
    (rs.map PWMD.path).Nodup →
    (∀ x ∈ rs, x.path ≠ (ks.headD default).path) →
    FR fs →
    ((∃ tail, (hardlinkMembers o cfg rs ks fs).1 = ks ++ tail ∧
      (tail.map PWMD.path).Sublist (rs.map PWMD.path) ∧
      (∀ m ∈ tail,
        (hardlinkMembers o cfg rs ks fs).2.1.links m.path =
          some ((ks.headD default).cachedIno) ∧
        m.cachedIno = (ks.headD default).cachedIno)) ∧
    (∀ p, p ∉ rs.map PWMD.path →
      (hardlinkMembers o cfg rs ks fs).2.1.links p = fs.links p) ∧
    FR (hardlinkMembers o cfg rs ks fs).2.1 ∧
    fs.nextIno ≤ (hardlinkMembers o cfg rs ks fs).2.1.nextIno ∧
    (∀ n, n < fs.nextIno →
      (hardlinkMembers o cfg rs ks fs).2.1.content n = fs.content n) ∧
    ((∀ x ∈ rs, ∃ ix, fs.links x.path = some ix ∧
        fs.content ix = fs.content ((ks.headD default).cachedIno)) →
      (((∀ p, o.linkOk p = true ∨ o.copyOk p = true) →
         Preserves fs (hardlinkMembers o cfg rs ks fs).2.1) ∧
       ((∀ x ∈ rs, o.removeOk x.path = true ∧ o.linkOk x.path = true ∧
           o.resetOk x.path = true) →
         (hardlinkMembers o cfg rs ks fs).1.map PWMD.path =
           ks.map PWMD.path ++ rs.map PWMD.path)))) := by
  intro rs
  induction rs with
  | nil =>
    intro ks fs hne hk hnd hsep hfr
    refine ⟨⟨[], by simp [hardlinkMembers], by simp, by simp⟩, ?_, ?_, ?_, ?_, ?_⟩
    · intro p _
      simp [hardlinkMembers]
    · simpa [hardlinkMembers] using hfr
    · simp [hardlinkMembers]
    · intro n _
      simp [hardlinkMembers]
    · intro _
      exact ⟨fun _ => by simpa [hardlinkMembers] using Preserves.refl fs,
             fun _ => by simp [hardlinkMembers]⟩
  | cons r rs ih =>
    intro ks fs hne hk hnd hsep hfr
    have hrne : r.path ≠ (ks.headD default).path := hsep r (by simp)
    have hndc : (∀ x ∈ rs, ¬ x.path = r.path) ∧ (rs.map PWMD.path).Nodup := by
      simpa using hnd
    have hnd1 : r.path ∉ rs.map PWMD.path := by
      intro h
      rcases List.mem_map.mp h with ⟨x, hx, hxeq⟩
      exact hndc.1 x hx hxeq
    have hnd2 : (rs.map PWMD.path).Nodup := hndc.2
    have hsep2 : ∀ x ∈ rs, x.path ≠ (ks.headD default).path :=
      fun x hx => hsep x (by simp [hx])
    cases ho : o.removeOk r.path with
    | false =>
      obtain ⟨e1, e2, e3⟩ := hardlinkMembers_cons_none o cfg hdry r rs ks fs fs []
        (hardlink_remove_fail o (ks.headD default) r fs (by simp [ho]))
      rw [e1, e2]
      obtain ⟨⟨tail, htl, hsub, htm⟩, hframe, hFR, hnext, hcont, hcond⟩ :=
        ih ks fs hne hk hnd2 hsep2 hfr
      refine ⟨⟨tail, htl, hsub.cons _, htm⟩, ?_, hFR, hnext, hcont, ?_⟩
      · intro p hp
        refine hframe p ?_
        intro h
        exact hp (by simp [h])
      · intro hP
        obtain ⟨hPres, _⟩ := hcond (fun x hx => hP x (by simp [hx]))
        refine ⟨fun hlc => hPres hlc, fun hall => ?_⟩
        have hcontra := (hall r (by simp)).1
        rw [ho] at hcontra
        simp at hcontra
    | true =>
      cases hir : fs.links r.path with
      | none =>
        obtain ⟨e1, e2, e3⟩ := hardlinkMembers_cons_none o cfg hdry r rs ks fs fs []
          (hardlink_remove_fail o (ks.headD default) r fs (by simp [hir]))
        rw [e1, e2]
        obtain ⟨⟨tail, htl, hsub, htm⟩, hframe, hFR, hnext, hcont, hcond⟩ :=
          ih ks fs hne hk hnd2 hsep2 hfr
        refine ⟨⟨tail, htl, hsub.cons _, htm⟩, ?_, hFR, hnext, hcont, ?_⟩
        · intro p hp
          refine hframe p ?_
          intro h
          exact hp (by simp [h])
        · intro hP
          obtain ⟨ix, hix, _⟩ := hP r (by simp)
          rw [hir] at hix
          simp at hix
      | some irr =>
        cases hl : o.linkOk r.path with
        | true =>
          obtain ⟨h1, h2, h3, h4, h5⟩ := hardlink_link_ok o (ks.headD default) r fs
            ((ks.headD default).cachedIno) irr hk hir hrne ho hl
          have hkpne : ¬ ((ks.headD default).path = r.path) := fun h => hrne h.symm
          have hk2 : (hardlink o (ks.headD default) r fs).2.1.links
              (ks.headD default).path = some ((ks.headD default).cachedIno) := by
            rw [h2, if_neg hkpne, hk]
          have hfr2 : FR (hardlink o (ks.headD default) r fs).2.1 := by
            intro p i hp
            rw [h4]
            rw [h2] at hp
            by_cases hpr : p = r.path
            · rw [if_pos hpr] at hp
              cases hp
              exact hfr (ks.headD default).path _ hk
            · rw [if_neg hpr] at hp
              exact hfr p i hp
          cases hrst : o.resetOk r.path with
          | true =>
            have hsome : (hardlink o (ks.headD default) r fs).1 =
                some ⟨r.path, (ks.headD default).cachedIno⟩ := by
              rw [h1, if_pos hrst]
            have hhl : hardlink o (ks.headD default) r fs =
                (some ⟨r.path, (ks.headD default).cachedIno⟩,
                 (hardlink o (ks.headD default) r fs).2.1,
                 [Ev.removeEv r.path, Ev.linkEv (ks.headD default).path r.path]) :=
              Prod.ext hsome (Prod.ext rfl h5)
            obtain ⟨e1, e2, e3⟩ := hardlinkMembers_cons_some o cfg hdry r rs ks fs
              _ _ _ hhl
            rw [e1, e2]
            have hne2 : ks ++ [(⟨r.path, (ks.headD default).cachedIno⟩ : PWMD)] ≠ [] := by
              simp
            have hhead : (ks ++ [(⟨r.path, (ks.headD default).cachedIno⟩ : PWMD)]).headD default =
                ks.headD default := headD_append ks _ hne
            obtain ⟨⟨tail, htl, hsub, htm⟩, hframe, hFR, hnext, hcont, hcond⟩ :=
              ih (ks ++ [⟨r.path, (ks.headD default).cachedIno⟩])
                (hardlink o (ks.headD default) r fs).2.1 hne2
                (by rw [hhead]; exact hk2) hnd2 (by rw [hhead]; exact hsep2) hfr2
            rw [hhead] at htm
            refine ⟨⟨⟨r.path, (ks.headD default).cachedIno⟩ :: tail, ?_, ?_, ?_⟩,
              ?_, hFR, ?_, ?_, ?_⟩
            · rw [htl, List.append_assoc]
              rfl
            · exact hsub.cons₂ _
            · intro m hm
              rcases List.mem_cons.mp hm with hmr | hmt
              · subst hmr
                refine ⟨?_, rfl⟩
                rw [hframe r.path hnd1, h2, if_pos rfl]
              · exact htm m hmt
            · intro p hp
              have hp1 : p ≠ r.path := fun h => hp (by simp [h])
              have hp2 : p ∉ rs.map PWMD.path := fun h => hp (by simp [h])
              rw [hframe p hp2, h2, if_neg hp1]
            · rw [h4] at hnext
              exact hnext
            · intro n hn
              rw [hcont n (by rw [h4]; exact hn), h3]
            · intro hP
              have hP2 : ∀ x ∈ rs, ∃ ix,
                  (hardlink o (ks.headD default) r fs).2.1.links x.path = some ix ∧
                  (hardlink o (ks.headD default) r fs).2.1.content ix =
                    (hardlink o (ks.headD default) r fs).2.1.content
                      ((ks ++ [(⟨r.path, (ks.headD default).cachedIno⟩ : PWMD)]).headD
                        default).cachedIno := by
                intro x hx
                obtain ⟨ix, hix, hcx⟩ := hP x (by simp [hx])
                have hxne : x.path ≠ r.path := by
                  intro h
                  exact hnd1 (h ▸ List.mem_map.mpr ⟨x, hx, rfl⟩)
                refine ⟨ix, by rw [h2, if_neg hxne, hix], ?_⟩
                rw [hhead, h3]
                exact hcx
              obtain ⟨hPres, hAll⟩ := hcond hP2
              constructor
              · intro hlc
                refine Preserves.trans ?_ (hPres hlc)
                intro p i hpi
                by_cases hpr : p = r.path
                · subst hpr
                  rw [hir] at hpi
                  cases hpi
                  obtain ⟨ix, hix, hcx⟩ := hP r (by simp)
                  rw [hir] at hix
                  cases hix
                  refine ⟨(ks.headD default).cachedIno, by rw [h2, if_pos rfl], ?_⟩
                  rw [h3]
                  exact hcx.symm
                · exact ⟨i, by rw [h2, if_neg hpr, hpi], by rw [h3]⟩
              · intro hall
                have hA := hAll (fun x hx => hall x (by simp [hx]))
                rw [hA]
                simp
          | false =>
            have hnone : (hardlink o (ks.headD default) r fs).1 = none := by
              rw [h1, if_neg (by simp [hrst])]
            have hhl : hardlink o (ks.headD default) r fs =
                (none, (hardlink o (ks.headD default) r fs).2.1,
                 [Ev.removeEv r.path, Ev.linkEv (ks.headD default).path r.path]) :=
              Prod.ext hnone (Prod.ext rfl h5)
            obtain ⟨e1, e2, e3⟩ := hardlinkMembers_cons_none o cfg hdry r rs ks fs
              _ _ hhl
            rw [e1, e2]
            obtain ⟨⟨tail, htl, hsub, htm⟩, hframe, hFR, hnext, hcont, hcond⟩ :=
              ih ks (hardlink o (ks.headD default) r fs).2.1 hne hk2 hnd2 hsep2 hfr2
            refine ⟨⟨tail, htl, hsub.cons _, htm⟩, ?_, hFR, ?_, ?_, ?_⟩
            · intro p hp
              have hp1 : p ≠ r.path := fun h => hp (by simp [h])
              have hp2 : p ∉ rs.map PWMD.path := fun h => hp (by simp [h])
              rw [hframe p hp2, h2, if_neg hp1]
            · rw [h4] at hnext
              exact hnext
            · intro n hn
              rw [hcont n (by rw [h4]; exact hn), h3]
            · intro hP
              have hP2 : ∀ x ∈ rs, ∃ ix,
                  (hardlink o (ks.headD default) r fs).2.1.links x.path = some ix ∧
                  (hardlink o (ks.headD default) r fs).2.1.content ix =
                    (hardlink o (ks.headD default) r fs).2.1.content
                      ((ks.headD default).cachedIno) := by
                intro x hx
                obtain ⟨ix, hix, hcx⟩ := hP x (by simp [hx])
                have hxne : x.path ≠ r.path := by
                  intro h
                  exact hnd1 (h ▸ List.mem_map.mpr ⟨x, hx, rfl⟩)
                exact ⟨ix, by rw [h2, if_neg hxne, hix], by rw [h3]; exact hcx⟩
              obtain ⟨hPres, _⟩ := hcond hP2
              constructor
              · intro hlc
                refine Preserves.trans ?_ (hPres hlc)
                intro p i hpi
                by_cases hpr : p = r.path
                · subst hpr
                  rw [hir] at hpi
                  cases hpi
                  obtain ⟨ix, hix, hcx⟩ := hP r (by simp)
                  rw [hir] at hix
                  cases hix
                  refine ⟨(ks.headD default).cachedIno, by rw [h2, if_pos rfl], ?_⟩
                  rw [h3]
                  exact hcx.symm
                · exact ⟨i, by rw [h2, if_neg hpr, hpi], by rw [h3]⟩
              · intro hall
                have hcontra := (hall r (by simp)).2.2
                rw [hrst] at hcontra
                simp at hcontra
        | false =>
          cases hc : o.copyOk r.path with
          | true =>
            obtain ⟨h1, h2, h3, h4, h5⟩ := hardlink_copy_ok o (ks.headD default) r fs
              ((ks.headD default).cachedIno) irr hk hir hrne ho hl hc
            have hkpne : ¬ ((ks.headD default).path = r.path) := fun h => hrne h.symm
            have hkIlt : (ks.headD default).cachedIno < fs.nextIno :=
              hfr (ks.headD default).path _ hk
            have hk2 : (hardlink o (ks.headD default) r fs).2.1.links
                (ks.headD default).path = some ((ks.headD default).cachedIno) := by
              rw [h2, if_neg hkpne, hk]
            have hfr2 : FR (hardlink o (ks.headD default) r fs).2.1 := by
              intro p i hp
              rw [h4]
              rw [h2] at hp
              by_cases hpr : p = r.path
              · rw [if_pos hpr] at hp
                cases hp
                exact Nat.lt_succ_self _
              · rw [if_neg hpr] at hp
                exact Nat.lt_succ_of_lt (hfr p i hp)
            have hhl : hardlink o (ks.headD default) r fs =
                (none, (hardlink o (ks.headD default) r fs).2.1,
                 [Ev.removeEv r.path, Ev.copyEv (ks.headD default).path r.path]) :=
              Prod.ext h1 (Prod.ext rfl h5)
            obtain ⟨e1, e2, e3⟩ := hardlinkMembers_cons_none o cfg hdry r rs ks fs
              _ _ hhl
            rw [e1, e2]
            obtain ⟨⟨tail, htl, hsub, htm⟩, hframe, hFR, hnext, hcont, hcond⟩ :=
              ih ks (hardlink o (ks.headD default) r fs).2.1 hne hk2 hnd2 hsep2 hfr2
            refine ⟨⟨tail, htl, hsub.cons _, htm⟩, ?_, hFR, ?_, ?_, ?_⟩
            · intro p hp
              have hp1 : p ≠ r.path := fun h => hp (by simp [h])
              have hp2 : p ∉ rs.map PWMD.path := fun h => hp (by simp [h])
              rw [hframe p hp2, h2, if_neg hp1]
            · rw [h4] at hnext
              exact Nat.le_of_succ_le hnext
            · intro n hn
              rw [hcont n (by rw [h4]; exact Nat.lt_succ_of_lt hn), h3,
                if_neg (Nat.ne_of_lt hn)]
            · intro hP
              have hP2 : ∀ x ∈ rs, ∃ ix,
                  (hardlink o (ks.headD default) r fs).2.1.links x.path = some ix ∧
                  (hardlink o (ks.headD default) r fs).2.1.content ix =
                    (hardlink o (ks.headD default) r fs).2.1.content
                      ((ks.headD default).cachedIno) := by
                intro x hx
                obtain ⟨ix, hix, hcx⟩ := hP x (by simp [hx])
                have hxne : x.path ≠ r.path := by
                  intro h
                  exact hnd1 (h ▸ List.mem_map.mpr ⟨x, hx, rfl⟩)
                have hixlt : ix < fs.nextIno := hfr x.path ix hix
                refine ⟨ix, by rw [h2, if_neg hxne, hix], ?_⟩
                rw [h3 ix, if_neg (Nat.ne_of_lt hixlt),
                  h3 ((ks.headD default).cachedIno), if_neg (Nat.ne_of_lt hkIlt)]
                exact hcx
              obtain ⟨hPres, _⟩ := hcond hP2
              constructor
              · intro hlc
                refine Preserves.trans ?_ (hPres hlc)
                intro p i hpi
                by_cases hpr : p = r.path
                · subst hpr
                  rw [hir] at hpi
                  cases hpi
                  obtain ⟨ix, hix, hcx⟩ := hP r (by simp)
                  rw [hir] at hix
                  cases hix
                  refine ⟨fs.nextIno, by rw [h2, if_pos rfl], ?_⟩
                  rw [h3, if_pos rfl]
                  exact hcx.symm
                · have hilt : i < fs.nextIno := hfr p i hpi
                  exact ⟨i, by rw [h2, if_neg hpr, hpi],
                    by rw [h3, if_neg (Nat.ne_of_lt hilt)]⟩
              · intro hall
                have hcontra := (hall r (by simp)).2.1
                rw [hl] at hcontra
                simp at hcontra
          | false =>
            obtain ⟨h1, h2, h3, h4, h5⟩ := hardlink_double_fail o (ks.headD default) r fs
              ((ks.headD default).cachedIno) irr hk hir hrne ho hl hc
            have hkpne : ¬ ((ks.headD default).path = r.path) := fun h => hrne h.symm
            have hk2 : (hardlink o (ks.headD default) r fs).2.1.links
                (ks.headD default).path = some ((ks.headD default).cachedIno) := by
              rw [h2, if_neg hkpne, hk]
            have hfr2 : FR (hardlink o (ks.headD default) r fs).2.1 := by
              intro p i hp
              rw [h4]
              rw [h2] at hp
              by_cases hpr : p = r.path
              · rw [if_pos hpr] at hp
                cases hp
              · rw [if_neg hpr] at hp
                exact hfr p i hp
            have hhl : hardlink o (ks.headD default) r fs =
                (none, (hardlink o (ks.headD default) r fs).2.1,
                 [Ev.removeEv r.path]) :=
              Prod.ext h1 (Prod.ext rfl h5)
            obtain ⟨e1, e2, e3⟩ := hardlinkMembers_cons_none o cfg hdry r rs ks fs
              _ _ hhl
            rw [e1, e2]
            obtain ⟨⟨tail, htl, hsub, htm⟩, hframe, hFR, hnext, hcont, hcond⟩ :=
              ih ks (hardlink o (ks.headD default) r fs).2.1 hne hk2 hnd2 hsep2 hfr2
            refine ⟨⟨tail, htl, hsub.cons _, htm⟩, ?_, hFR, ?_, ?_, ?_⟩
            · intro p hp
              have hp1 : p ≠ r.path := fun h => hp (by simp [h])
              have hp2 : p ∉ rs.map PWMD.path := fun h => hp (by simp [h])
              rw [hframe p hp2, h2, if_neg hp1]
            · rw [h4] at hnext
              exact hnext
            · intro n hn
              rw [hcont n (by rw [h4]; exact hn), h3]
            · intro hP
              constructor
              · intro hlc
                rcases hlc r.path with h | h
                · rw [hl] at h
                  simp at h
                · rw [hc] at h
                  simp at h
              · intro hall
                have hcontra := (hall r (by simp)).2.1
                rw [hl] at hcontra
                simp at hcontra

/-! ### C2 -/

theorem exFS_FR : FR exFS := by
  intro p i h
  simp only [exFS] at h
  split at h
  · cases h; decide
  · split at h
    · cases h; decide
    · split at h
      · cases h; decide
      · cases h

theorem exFS_cmp12 (o : Oracle) (h1 : o.openOk 1 = true) (h2 : o.openOk 2 = true) :
    (cmp o exFS 1 2).getD false = true := by
  have hchunk : fileChunks [7, 7] = [[7, 7]] := by
    rw [fileChunks]
    rw [show (([7, 7] : Bytes).drop 1024) = [] by decide]
    rw [fileChunks]
    decide
  rw [show cmp o exFS 1 2 =
      (if (o.openOk 1 && o.openOk 2) = true then
        some (cmp_read (fileChunks [7, 7]) (fileChunks [7, 7])) else none) from rfl]
  rw [if_pos (by rw [h1, h2]; rfl), hchunk]
  decide

/-- C2 counterexample: on the example filesystem, paths 1 and 2 hold
byte-identical files on distinct inodes; the oracle refuses the hardlink at
path 1 but allows the fallback copy.  The transaction for the member at
path 1 fails, yet the file is not left untouched: it is removed and
re-created as a byte-identical copy on the fresh inode 100, with a remove
and a copy event in the trace, so the claim that a failed member is left
untouched (not removed, not copied) is false.  The bookkeeping part holds:
the failed member is not counted into the keep cluster. -/
theorem c2_counterexample :
    exFS.links 1 = some 10 ∧
    (run_one_size exLinkFail ⟨false, 1⟩ [⟨1, 10⟩, ⟨2, 20⟩] exFS).2.1.links 1 = some 100 ∧
    (run_one_size exLinkFail ⟨false, 1⟩ [⟨1, 10⟩, ⟨2, 20⟩] exFS).2.1.content 100 =
      exFS.content 10 ∧
    Ev.removeEv 1 ∈ (run_one_size exLinkFail ⟨false, 1⟩ [⟨1, 10⟩, ⟨2, 20⟩] exFS).2.2 ∧
    Ev.copyEv 2 1 ∈ (run_one_size exLinkFail ⟨false, 1⟩ [⟨1, 10⟩, ⟨2, 20⟩] exFS).2.2 ∧
    (run_one_size exLinkFail ⟨false, 1⟩ [⟨1, 10⟩, ⟨2, 20⟩] exFS).1 = [[⟨2, 20⟩]] := by
  have hcmp : (cmp exLinkFail exFS (PWMD.mk 1 10).path (PWMD.mk 2 20).path).getD
      false = true := exFS_cmp12 exLinkFail rfl rfl
  have hml := mergeLoop_pair exLinkFail ⟨false, 1⟩ rfl ⟨2, 20⟩ ⟨1, 10⟩ exFS hcmp
  obtain ⟨hh1, hh2, hh3, hh4, hh5⟩ := hardlink_copy_ok exLinkFail ⟨2, 20⟩ ⟨1, 10⟩
    exFS 20 10 rfl rfl (by decide) rfl (by decide) rfl
  have hbuild : buildByInode [⟨1, 10⟩, ⟨2, 20⟩] = [[⟨2, 20⟩], [⟨1, 10⟩]] := by decide
  have hrun : run_one_size exLinkFail ⟨false, 1⟩ [⟨1, 10⟩, ⟨2, 20⟩] exFS =
      ([[⟨2, 20⟩]], (hardlink exLinkFail ⟨2, 20⟩ ⟨1, 10⟩ exFS).2.1,
       [Ev.cmpEv 1 2, Ev.removeEv 1, Ev.copyEv 2 1]) := by
    simp only [run_one_size]
    rw [hbuild, hml, hh5, hh1]
  refine ⟨rfl, ?_, ?_, ?_, ?_, ?_⟩
  · rw [hrun]
    show (hardlink exLinkFail ⟨2, 20⟩ ⟨1, 10⟩ exFS).2.1.links 1 = some 100
    rw [hh2 1, if_pos rfl]
    rfl
  · rw [hrun]
    show (hardlink exLinkFail ⟨2, 20⟩ ⟨1, 10⟩ exFS).2.1.content 100 = exFS.content 10
    rw [hh3 100, if_pos (by rfl)]
    rfl
  · rw [hrun]
    decide
  · rw [hrun]
    decide
  · rw [hrun]

/-- C2 (amended): during a cluster merge the absorption decision depends only
on the representative comparison, and the keep cluster is extended exactly by
an in-order subset of the replace members, each of which ends genuinely
linked to the keep inode with refreshed cached metadata; hence a member whose
transaction fails is never counted as belonging to the keep cluster and
processing continues with the remaining members. -/
theorem c2_failed_member_bookkeeping (o : Oracle) (cfg : Config)
    (keeps replaces : List PWMD) (fs : FS)
    (hdry : cfg.dry_run = false)
    (hne : keeps ≠ [])
    (hk : fs.links (keeps.headD default).path = some ((keeps.headD default).cachedIno))
    (hnd : (replaces.map PWMD.path).Nodup)
    (hsep : ∀ x ∈ replaces, x.path ≠ (keeps.headD default).path)
    (hfr : FR fs) :
    ((hardlink_all o cfg keeps replaces fs).1 =
      (cmp o fs (replaces.headD default).path (keeps.headD default).path).getD false) ∧
    (∃ tail, (hardlink_all o cfg keeps replaces fs).2.1 = keeps ++ tail ∧
      (tail.map PWMD.path).Sublist (replaces.map PWMD.path) ∧
      ∀ m ∈ tail,
        (hardlink_all o cfg keeps replaces fs).2.2.1.links m.path =
          some ((keeps.headD default).cachedIno) ∧
        m.cachedIno = (keeps.headD default).cachedIno) := by
  refine ⟨hardlink_all_fst o cfg keeps replaces fs, ?_⟩
  by_cases hcmp : (cmp o fs (replaces.headD default).path
      (keeps.headD default).path).getD false = true
  · obtain ⟨e1, e2, _⟩ := hardlink_all_components o cfg keeps replaces fs hcmp
    rw [e1, e2]
    obtain ⟨⟨tail, htl, hsub, htm⟩, _, _, _, _, _⟩ :=
      hardlinkMembers_master o cfg hdry replaces keeps fs hne hk hnd hsep hfr
    exact ⟨tail, htl, hsub, htm⟩
  · rw [hardlink_all_false o cfg keeps replaces fs hcmp]
    exact ⟨[], by simp, by simp, by simp⟩

/-- C2 witness: the amended bookkeeping theorem applied to the concrete merge
in which the hardlink at path 1 fails. -/
theorem c2_witness :
    ((Config.mk false 1).dry_run = false ∧ ([(⟨2, 20⟩ : PWMD)] ≠ []) ∧
      exFS.links 2 = some 20 ∧ FR exFS) ∧
    (((hardlink_all exLinkFail ⟨false, 1⟩ [⟨2, 20⟩] [⟨1, 10⟩] exFS).1 =
      (cmp exLinkFail exFS 1 2).getD false) ∧
    (∃ tail, (hardlink_all exLinkFail ⟨false, 1⟩ [⟨2, 20⟩] [⟨1, 10⟩] exFS).2.1 =
        [⟨2, 20⟩] ++ tail ∧
      (tail.map PWMD.path).Sublist ([(⟨1, 10⟩ : PWMD)].map PWMD.path) ∧
      ∀ m ∈ tail,
        (hardlink_all exLinkFail ⟨false, 1⟩ [⟨2, 20⟩] [⟨1, 10⟩] exFS).2.2.1.links m.path =
          some 20 ∧ m.cachedIno = 20)) :=
  ⟨⟨rfl, by decide, rfl, exFS_FR⟩,
   c2_failed_member_bookkeeping exLinkFail ⟨false, 1⟩ [⟨2, 20⟩] [⟨1, 10⟩] exFS
     rfl (by decide) rfl (by decide) (by decide) exFS_FR⟩

/-! ### Worklist decomposition lemmas -/

theorem getD_mem {α : Type} (d : α) (v : List α) (i : Nat) (hi : i < v.length) :
    v.getD i d ∈ v := by
  rw [List.getD_eq_getElem v d hi]
  exact List.getElem_mem hi

theorem set_getD_self (v : List (List PWMD)) (i : Nat) :
    v.set i (v.getD i []) = v := by
  induction v generalizing i with
  | nil => rfl
  | cons c cs ih =>
    cases i with
    | zero => rfl
    | succ i =>
      show c :: cs.set i (cs.getD i []) = c :: cs
      rw [ih i]

theorem two_split {α : Type} (d : α) (v : List α) (i j : Nat)
    (hij : i < j) (hj : j < v.length) :
    ∃ A B C, v = A ++ v.getD i d :: (B ++ v.getD j d :: C) ∧
      A.length = i ∧ (A ++ v.getD i d :: B).length = j := by
  have hi : i < v.length := by omega
  refine ⟨v.take i, (v.drop (i + 1)).take (j - i - 1), v.drop (j + 1), ?_, ?_, ?_⟩
  · have e1 : v = v.take i ++ v.drop i := (List.take_append_drop i v).symm
    have e2 : v.drop i = v[i] :: v.drop (i + 1) := List.drop_eq_getElem_cons hi
    have e3 : v.drop (i + 1) =
        (v.drop (i + 1)).take (j - i - 1) ++ (v.drop (i + 1)).drop (j - i - 1) :=
      (List.take_append_drop _ _).symm
    have e4 : (v.drop (i + 1)).drop (j - i - 1) = v.drop j := by
      rw [List.drop_drop]
      congr 1
      omega
    have e5 : v.drop j = v[j] :: v.drop (j + 1) := List.drop_eq_getElem_cons hj
    rw [List.getD_eq_getElem v d hi, List.getD_eq_getElem v d hj]
    symm
    calc v.take i ++ v[i] :: ((v.drop (i + 1)).take (j - i - 1) ++ v[j] :: v.drop (j + 1))
        = v.take i ++ v[i] :: ((v.drop (i + 1)).take (j - i - 1) ++ v.drop j) := by
          rw [← e5]
      _ = v.take i ++ v[i] ::
            ((v.drop (i + 1)).take (j - i - 1) ++ (v.drop (i + 1)).drop (j - i - 1)) := by
          rw [e4]
      _ = v.take i ++ v[i] :: v.drop (i + 1) := by rw [← e3]
      _ = v.take i ++ v.drop i := by rw [← e2]
      _ = v := List.take_append_drop i v
  · simp [List.length_take]
    omega
  · simp [List.length_take, List.length_drop]
    omega

theorem ClusterInv_perm {fs : FS} {v w : List (List PWMD)} (h : ClusterInv fs v)
    (hp : v.Perm w) : ClusterInv fs w := by
  obtain ⟨h1, h2, h3⟩ := h
  refine ⟨fun c hc => h1 c (hp.symm.subset hc),
    fun c hc => h2 c (hp.symm.subset hc), ?_⟩
  exact (memberPaths_perm hp).nodup_iff.mp h3

theorem mem_of_memberPaths_sub {v : List (List PWMD)} {c : List PWMD}
    {m : PWMD} (hc : c ∈ v) (hm : m ∈ c) : m.path ∈ memberPaths v :=
  (mem_memberPaths v m.path).mpr ⟨c, hc, m, hm, rfl⟩

theorem merge_step (o : Oracle) (cfg : Config) (hdry : cfg.dry_run = false)
    (v : List (List PWMD)) (i j : Nat) (fs : FS) (ks rs : List PWMD)
    (hij : i < j) (hj : j < v.length)
    (hks : ks = v.getD i []) (hrs : rs = v.getD j [])
    (hfr : FR fs) (hinv : ClusterInv fs v)
    (hres : (hardlink_all o cfg ks rs fs).1 = true) :
    (∃ tail, (hardlink_all o cfg ks rs fs).2.1 = ks ++ tail ∧
      (tail.map PWMD.path).Sublist (rs.map PWMD.path) ∧
      ((∀ x ∈ rs, o.removeOk x.path = true ∧ o.linkOk x.path = true ∧
          o.resetOk x.path = true) →
        tail.map PWMD.path = rs.map PWMD.path)) ∧
    FR (hardlink_all o cfg ks rs fs).2.2.1 ∧
    ClusterInv (hardlink_all o cfg ks rs fs).2.2.1
      (swapRemove (v.set i (hardlink_all o cfg ks rs fs).2.1) j) ∧
    ((∀ p, o.linkOk p = true ∨ o.copyOk p = true) →
      Preserves fs (hardlink_all o cfg ks rs fs).2.2.1) ∧
    (∀ p, p ∉ rs.map PWMD.path →
      (hardlink_all o cfg ks rs fs).2.2.1.links p = fs.links p) ∧
    fs.nextIno ≤ (hardlink_all o cfg ks rs fs).2.2.1.nextIno ∧
    (∀ n, n < fs.nextIno →
      (hardlink_all o cfg ks rs fs).2.2.1.content n = fs.content n) ∧
    ((∀ x ∈ rs, o.removeOk x.path = true ∧ o.linkOk x.path = true ∧
        o.resetOk x.path = true) →
      (memberPaths (swapRemove
        (v.set i (hardlink_all o cfg ks rs fs).2.1) j)).Perm (memberPaths v)) := by
  obtain ⟨hne, hlink, hnd⟩ := hinv
  have hiv : i < v.length := Nat.lt_trans hij hj
  have hksv : ks ∈ v := hks ▸ getD_mem [] v i hiv
  have hrsv : rs ∈ v := hrs ▸ getD_mem [] v j hj
  have hksne : ks ≠ [] := hne _ hksv
  have hrsne : rs ≠ [] := hne _ hrsv
  obtain ⟨A, B, C, hv, hA, hAB⟩ := two_split [] v i j hij hj
  rw [← hks, ← hrs] at hv
  have hABn : A.length + 1 + B.length = j := by
    have h := hAB
    simp only [List.length_append, List.length_cons] at h
    omega
  have hmp0 : memberPaths v =
      memberPaths A ++ (ks.map PWMD.path ++
        (memberPaths B ++ (rs.map PWMD.path ++ memberPaths C))) := by
    conv_lhs => rw [hv]
    rw [memberPaths_append, memberPaths_cons, memberPaths_append, memberPaths_cons]
  have hndv : (memberPaths A ++ (ks.map PWMD.path ++
      (memberPaths B ++ (rs.map PWMD.path ++ memberPaths C)))).Nodup :=
    hmp0 ▸ hnd
  have hnd1 : ((memberPaths A ++ ks.map PWMD.path ++ memberPaths B) ++
      (rs.map PWMD.path ++ memberPaths C)).Nodup := by
    simpa [List.append_assoc] using hndv
  have hdisj : (memberPaths A ++ ks.map PWMD.path ++ memberPaths B).Disjoint
      (rs.map PWMD.path ++ memberPaths C) := List.disjoint_of_nodup_append hnd1
  have hnd2 : (rs.map PWMD.path ++ memberPaths C).Nodup := hnd1.of_append_right
  have hnd_rs : (rs.map PWMD.path).Nodup := hnd2.of_append_left
  have hdisj2 : (rs.map PWMD.path).Disjoint (memberPaths C) :=
    List.disjoint_of_nodup_append hnd2
  have hL1_not_rs : ∀ p, p ∈ memberPaths A ++ ks.map PWMD.path ++ memberPaths B →
      p ∉ rs.map PWMD.path :=
    fun p hp hpr => hdisj hp (List.mem_append.mpr (Or.inl hpr))
  have hC_not_rs : ∀ p, p ∈ memberPaths C → p ∉ rs.map PWMD.path :=
    fun p hp hpr => hdisj2 hpr hp
  have hkhead : fs.links (ks.headD default).path =
      some ((ks.headD default).cachedIno) :=
    (hlink ks hksv (ks.headD default) (headD_mem ks hksne)).1
  have hrhead : fs.links (rs.headD default).path =
      some ((rs.headD default).cachedIno) :=
    (hlink rs hrsv (rs.headD default) (headD_mem rs hrsne)).1
  have hsep : ∀ x ∈ rs, x.path ≠ (ks.headD default).path := by
    intro x hx heq
    have hxP : x.path ∈ rs.map PWMD.path := List.mem_map.mpr ⟨x, hx, rfl⟩
    have hkP : (ks.headD default).path ∈
        memberPaths A ++ ks.map PWMD.path ++ memberPaths B :=
      List.mem_append.mpr (Or.inl (List.mem_append.mpr (Or.inr
        (List.mem_map.mpr ⟨ks.headD default, headD_mem ks hksne, rfl⟩))))
    exact hL1_not_rs _ hkP (heq ▸ hxP)
  have hcmp : (cmp o fs (rs.headD default).path
      (ks.headD default).path).getD false = true := by
    rw [← hardlink_all_fst o cfg ks rs fs]
    exact hres
  obtain ⟨hc1, hc2, hc3⟩ := hardlink_all_components o cfg ks rs fs hcmp
  obtain ⟨⟨tail, htl, hsub, htm⟩, hframe, hFR, hnext, hcont, hcond⟩ :=
    hardlinkMembers_master o cfg hdry rs ks fs hksne hkhead hnd_rs hsep hfr
  have hP : ∀ x ∈ rs, ∃ ix, fs.links x.path = some ix ∧
      fs.content ix = fs.content ((ks.headD default).cachedIno) := by
    intro x hx
    refine ⟨(rs.headD default).cachedIno, (hlink rs hrsv x hx).1, ?_⟩
    exact cmp_true_content o fs (rs.headD default).path (ks.headD default).path
      _ _ hrhead hkhead hcmp
  obtain ⟨hPres, hAll⟩ := hcond hP
  have hAv : ∀ c ∈ A, c ∈ v := fun c hc => by
    rw [hv]; exact List.mem_append.mpr (Or.inl hc)
  have hBv : ∀ c ∈ B, c ∈ v := fun c hc => by
    rw [hv]
    exact List.mem_append.mpr (Or.inr (List.mem_cons.mpr (Or.inr
      (List.mem_append.mpr (Or.inl hc)))))
  have hCv : ∀ c ∈ C, c ∈ v := fun c hc => by
    rw [hv]
    exact List.mem_append.mpr (Or.inr (List.mem_cons.mpr (Or.inr
      (List.mem_append.mpr (Or.inr (List.mem_cons.mpr (Or.inr hc)))))))
  have hApath : ∀ c ∈ A, ∀ m ∈ c, m.path ∉ rs.map PWMD.path :=
    fun c hc m hm => hL1_not_rs _ (List.mem_append.mpr (Or.inl
      (List.mem_append.mpr (Or.inl (mem_of_memberPaths_sub hc hm)))))
  have hBpath : ∀ c ∈ B, ∀ m ∈ c, m.path ∉ rs.map PWMD.path :=
    fun c hc m hm => hL1_not_rs _ (List.mem_append.mpr (Or.inr
      (mem_of_memberPaths_sub hc hm)))
  have hCpath : ∀ c ∈ C, ∀ m ∈ c, m.path ∉ rs.map PWMD.path :=
    fun c hc m hm => hC_not_rs _ (mem_of_memberPaths_sub hc hm)
  have hother : ∀ c ∈ v, (∀ m ∈ c, m.path ∉ rs.map PWMD.path) →
      ∀ m ∈ c, (hardlinkMembers o cfg rs ks fs).2.1.links m.path =
        some ((c.headD default).cachedIno) ∧
        m.cachedIno = (c.headD default).cachedIno := by
    intro c hcv hcp m hm
    refine ⟨?_, (hlink c hcv m hm).2⟩
    rw [hframe _ (hcp m hm)]
    exact (hlink c hcv m hm).1
  have hmem : ∀ c, c ∈ (A ++ (ks ++ tail) :: B) ++ C →
      c ∈ A ∨ c = ks ++ tail ∨ c ∈ B ∨ c ∈ C := by
    intro c hc
    rcases List.mem_append.mp hc with h | h
    · rcases List.mem_append.mp h with h2 | h2
      · exact Or.inl h2
      · rcases List.mem_cons.mp h2 with h3 | h3
        · exact Or.inr (Or.inl h3)
        · exact Or.inr (Or.inr (Or.inl h3))
    · exact Or.inr (Or.inr (Or.inr h))
  have hCI : ClusterInv (hardlinkMembers o cfg rs ks fs).2.1
      ((A ++ (ks ++ tail) :: B) ++ C) := by
    refine ⟨?_, ?_, ?_⟩
    · intro c hc
      rcases hmem c hc with h | h | h | h
      · exact hne c (hAv c h)
      · subst h
        cases ks with
        | nil => exact absurd rfl hksne
        | cons a as => simp
      · exact hne c (hBv c h)
      · exact hne c (hCv c h)
    · intro c hc m hm
      rcases hmem c hc with h | h | h | h
      · exact hother c (hAv c h) (hApath c h) m hm
      · subst h
        rw [headD_append ks tail hksne]
        rcases List.mem_append.mp hm with hmk | hmt
        · have hmp' : m.path ∉ rs.map PWMD.path :=
            hL1_not_rs _ (List.mem_append.mpr (Or.inl (List.mem_append.mpr
              (Or.inr (List.mem_map.mpr ⟨m, hmk, rfl⟩)))))
          refine ⟨?_, (hlink ks hksv m hmk).2⟩
          rw [hframe _ hmp']
          exact (hlink ks hksv m hmk).1
        · exact htm m hmt
      · exact hother c (hBv c h) (hBpath c h) m hm
      · exact hother c (hCv c h) (hCpath c h) m hm
    · have hsubL : (memberPaths A ++ (ks.map PWMD.path ++ (memberPaths B ++
          (tail.map PWMD.path ++ memberPaths C)))).Sublist
          (memberPaths A ++ (ks.map PWMD.path ++ (memberPaths B ++
          (rs.map PWMD.path ++ memberPaths C)))) :=
        (((hsub.append_right _).append_left _).append_left _).append_left _
      have hndL : (memberPaths A ++ (ks.map PWMD.path ++ (memberPaths B ++
          (tail.map PWMD.path ++ memberPaths C)))).Nodup := hndv.sublist hsubL
      have hpermc : (memberPaths ((A ++ (ks ++ tail) :: B) ++ C)).Perm
          (memberPaths A ++ (ks.map PWMD.path ++ (memberPaths B ++
          (tail.map PWMD.path ++ memberPaths C)))) := by
        rw [memberPaths_append, memberPaths_append, memberPaths_cons,
          List.map_append]
        rw [List.perm_iff_count]
        intro a
        simp only [List.count_append]
        omega
      exact hpermc.nodup_iff.mpr hndL
  have hlen2 : (A ++ (ks ++ tail) :: B).length = j := by
    simp only [List.length_append, List.length_cons]
    omega
  have hset2 : v.set i (ks ++ tail) = A ++ (ks ++ tail) :: (B ++ rs :: C) := by
    conv_lhs => rw [hv, ← hA]
    exact set_at_append A ks (B ++ rs :: C) (ks ++ tail)
  have hperm1 : (swapRemove (v.set i (ks ++ tail)) j).Perm
      ((A ++ (ks ++ tail) :: B) ++ C) := by
    have hlenset : j < (v.set i (ks ++ tail)).length := by
      rw [List.length_set]; exact hj
    refine (swapRemove_perm (v.set i (ks ++ tail)) j hlenset).trans ?_
    rw [hset2]
    rw [show A ++ (ks ++ tail) :: (B ++ rs :: C) =
      (A ++ (ks ++ tail) :: B) ++ rs :: C by simp]
    rw [← hlen2, eraseIdx_at_append]
  refine ⟨⟨tail, by rw [hc1]; exact htl, hsub, ?_⟩, ?_, ?_, ?_, ?_, ?_, ?_, ?_⟩
  · intro hall
    have hA2 := hAll hall
    rw [htl, List.map_append] at hA2
    exact List.append_cancel_left hA2
  · rw [hc2]; exact hFR
  · rw [hc2, hc1, htl]
    exact ClusterInv_perm hCI hperm1.symm
  · intro hlc
    rw [hc2]
    exact hPres hlc
  · intro p hp
    rw [hc2]
    exact hframe p hp
  · rw [hc2]; exact hnext
  · intro n hn
    rw [hc2]
    exact hcont n hn
  · intro hall2
    have htp : tail.map PWMD.path = rs.map PWMD.path := by
      have hA2 := hAll hall2
      rw [htl, List.map_append] at hA2
      exact List.append_cancel_left hA2
    rw [hc1, htl]
    refine (memberPaths_perm hperm1).trans ?_
    rw [hmp0, memberPaths_append, memberPaths_append, memberPaths_cons,
      List.map_append, htp]
    rw [List.perm_iff_count]
    intro a
    simp only [List.count_append]
    omega

theorem ml_preserves (o : Oracle) (cfg : Config) (hdry : cfg.dry_run = false)
    (hlc : ∀ p, o.linkOk p = true ∨ o.copyOk p = true) :
    ∀ (v : List (List PWMD)) (i j : Nat) (fs : FS), i < j → FR fs →
      ClusterInv fs v →
      Preserves fs (mergeLoop o cfg v i j fs).2.1 ∧
      FR (mergeLoop o cfg v i j fs).2.1 ∧
      (∀ p, p ∉ memberPaths v →
        (mergeLoop o cfg v i j fs).2.1.links p = fs.links p) := by
  intro v i j fs
  induction v, i, j, fs using mergeLoop_ind o cfg with
  | case1 v i j fs hi hj hg =>
    intro hij hfr hinv
    have hs := (get2mut_isSome v i j).mpr ⟨hij, hj⟩
    rw [hg] at hs
    simp at hs
  | case2 v i j fs hi hj keeps replaces hg hres ih =>
    intro hij hfr hinv
    have hge := get2mut_eq [] v i j hij hj
    rw [hg] at hge
    have hkeq : keeps = v.getD i [] ∧ replaces = v.getD j [] := by
      injection hge with h
      exact ⟨congrArg Prod.fst h, congrArg Prod.snd h⟩
    obtain ⟨⟨tail, htl, hsub, hallp⟩, hFR2, hCI2, hpres, hframe, hnext, hcont,
        hmP⟩ :=
      merge_step o cfg hdry v i j fs keeps replaces hij hj hkeq.1 hkeq.2
        hfr hinv hres
    obtain ⟨ihP, ihFR, ihFrame⟩ := ih hij hFR2 hCI2
    rw [mergeLoop_eq_merged o cfg v i j fs hi hj keeps replaces hg hres]
    have hrsP : ∀ p, p ∉ memberPaths v → p ∉ replaces.map PWMD.path := by
      intro p hp hpr
      rcases List.mem_map.mp hpr with ⟨x, hx, hxe⟩
      exact hp (hxe ▸ mem_of_memberPaths_sub
        (hkeq.2 ▸ getD_mem [] v j hj) hx)
    have hV2 : ∀ p, p ∉ memberPaths v →
        p ∉ memberPaths (swapRemove
          (v.set i (hardlink_all o cfg keeps replaces fs).2.1) j) := by
      intro p hp hpm
      obtain ⟨c, hc, m, hm, hme⟩ := (mem_memberPaths _ p).mp hpm
      have hc2 : c ∈ v.set i (hardlink_all o cfg keeps replaces fs).2.1 :=
        mem_swapRemove _ j c hc
      rcases List.mem_or_eq_of_mem_set hc2 with h | h
      · exact hp (hme ▸ mem_of_memberPaths_sub h hm)
      · rw [htl] at h
        subst h
        rcases List.mem_append.mp hm with hmk | hmt
        · exact hp (hme ▸ mem_of_memberPaths_sub
            (hkeq.1 ▸ getD_mem [] v i (Nat.lt_trans hij hj)) hmk)
        · have : m.path ∈ replaces.map PWMD.path :=
            hsub.subset (List.mem_map.mpr ⟨m, hmt, rfl⟩)
          exact hrsP p hp (hme ▸ this)
    refine ⟨Preserves.trans (hpres hlc) ihP, ihFR, ?_⟩
    intro p hp
    rw [ihFrame p (hV2 p hp), hframe p (hrsP p hp)]
  | case3 v i j fs hi hj keeps replaces hg hres ih =>
    intro hij hfr hinv
    have hge := get2mut_eq [] v i j hij hj
    rw [hg] at hge
    have hkeq : keeps = v.getD i [] ∧ replaces = v.getD j [] := by
      injection hge with h
      exact ⟨congrArg Prod.fst h, congrArg Prod.snd h⟩
    have hcmpf : ¬ (cmp o fs (replaces.headD default).path
        (keeps.headD default).path).getD false = true := by
      rw [hardlink_all_fst o cfg keeps replaces fs] at hres
      exact hres
    have hfalse := hardlink_all_false o cfg keeps replaces fs hcmpf
    have h21 : (hardlink_all o cfg keeps replaces fs).2.1 = keeps := by
      rw [hfalse]
    have h221 : (hardlink_all o cfg keeps replaces fs).2.2.1 = fs := by
      rw [hfalse]
    have hv2 : v.set i (hardlink_all o cfg keeps replaces fs).2.1 = v := by
      rw [h21, hkeq.1, set_getD_self]
    rw [mergeLoop_eq_unmerged o cfg v i j fs hi hj keeps replaces hg hres]
    rw [hv2, h221] at ih ⊢
    exact ih (Nat.lt_succ_of_lt hij) hfr hinv
  | case4 v i j fs hi hj ih =>
    intro _ hfr hinv
    rw [mergeLoop_eq_inner_done o cfg v i j fs hi hj]
    exact ih (Nat.lt_succ_self _) hfr hinv
  | case5 v i j fs hi =>
    intro _ hfr hinv
    rw [mergeLoop_eq_outer_done o cfg v i j fs hi]
    exact ⟨Preserves.refl fs, hfr, fun p _ => rfl⟩

theorem insertByInode_coherent (p : PWMD) (g : List (Ino × List PWMD))
    (h : ∀ e ∈ g, e.2 ≠ [] ∧ ∀ m ∈ e.2, m.cachedIno = e.1) :
    ∀ e ∈ insertByInode p g, e.2 ≠ [] ∧ ∀ m ∈ e.2, m.cachedIno = e.1 := by
  induction g with
  | nil =>
    intro e he
    simp only [insertByInode, List.mem_singleton] at he
    subst he
    exact ⟨by simp, by intro m hm; simp at hm; simp [hm]⟩
  | cons a rest ih =>
    rcases a with ⟨ino, c⟩
    intro e he
    simp only [insertByInode] at he
    split_ifs at he with h1 h2
    · rcases List.mem_cons.mp he with h3 | h3
      · subst h3
        refine ⟨by simp, ?_⟩
        intro m hm
        rcases List.mem_append.mp hm with h4 | h4
        · exact (h (ino, c) (by simp)).2 m h4
        · simp at h4
          rw [h4, ← h1]
      · exact h e (by simp [h3])
    · rcases List.mem_cons.mp he with h3 | h3
      · subst h3
        exact ⟨by simp, by intro m hm; simp at hm; simp [hm]⟩
      · exact h e h3
    · rcases List.mem_cons.mp he with h3 | h3
      · subst h3
        exact h (ino, c) (by simp)
      · exact ih (fun e2 he2 => h e2 (by simp [he2])) e h3

theorem insertByInode_flatten (p : PWMD) (g : List (Ino × List PWMD)) :
    (((insertByInode p g).map Prod.snd).flatten).Perm
      (p :: (g.map Prod.snd).flatten) := by
  induction g with
  | nil => simp [insertByInode]
  | cons a rest ih =>
    rcases a with ⟨ino, c⟩
    simp only [insertByInode]
    split_ifs with h1 h2
    · simp only [List.map_cons, List.flatten_cons]
      exact (List.perm_append_singleton p c).append_right _
    · simp only [List.map_cons, List.flatten_cons]
      exact List.Perm.refl _
    · simp only [List.map_cons, List.flatten_cons]
      refine (ih.append_left c).trans ?_
      exact List.perm_middle

theorem foldl_insert_coherent (pwmds : List PWMD) :
    ∀ g, (∀ e ∈ g, e.2 ≠ [] ∧ ∀ m ∈ e.2, m.cachedIno = e.1) →
    ∀ e ∈ pwmds.foldl (fun acc p => insertByInode p acc) g,
      e.2 ≠ [] ∧ ∀ m ∈ e.2, m.cachedIno = e.1 := by
  induction pwmds with
  | nil => intro g hg; exact hg
  | cons p ps ih =>
    intro g hg
    simp only [List.foldl_cons]
    exact ih _ (insertByInode_coherent p g hg)

theorem foldl_insert_flatten (pwmds : List PWMD) :
    ∀ g, (((pwmds.foldl (fun acc p => insertByInode p acc) g).map
      Prod.snd).flatten).Perm (pwmds ++ (g.map Prod.snd).flatten) := by
  induction pwmds with
  | nil => intro g; simp
  | cons p ps ih =>
    intro g
    simp only [List.foldl_cons, List.cons_append]
    refine (ih (insertByInode p g)).trans ?_
    refine ((insertByInode_flatten p g).append_left ps).trans ?_
    exact List.perm_middle

theorem insertDescLen_perm (c : List PWMD) (l : List (List PWMD)) :
    (insertDescLen c l).Perm (c :: l) := by
  induction l with
  | nil => exact List.Perm.refl _
  | cons d ds ih =>
    rw [insertDescLen]
    split_ifs with h
    · exact (ih.cons d).trans (List.Perm.swap c d ds)
    · exact List.Perm.refl _

theorem sortDescLen_perm (l : List (List PWMD)) : (sortDescLen l).Perm l := by
  induction l with
  | nil => exact List.Perm.refl _
  | cons c cs ih =>
    simp only [sortDescLen, List.foldr_cons]
    refine (insertDescLen_perm c _).trans ?_
    simp only [sortDescLen] at ih
    exact ih.cons c

theorem buildByInode_perm (pwmds : List PWMD) :
    (memberPaths (buildByInode pwmds)).Perm (pwmds.map PWMD.path) := by
  refine (memberPaths_perm (sortDescLen_perm _)).trans ?_
  have h := foldl_insert_flatten pwmds []
  simp only [List.map_nil, List.flatten_nil, List.append_nil] at h
  have h2 := h.map PWMD.path
  rw [memberPaths, ← List.map_flatten]
  exact h2

theorem buildByInode_clusterInv (fs : FS) (pwmds : List PWMD)
    (hlinks : ∀ x ∈ pwmds, fs.links x.path = some x.cachedIno)
    (hnd : (pwmds.map PWMD.path).Nodup) :
    ClusterInv fs (buildByInode pwmds) := by
  have hfold := foldl_insert_coherent pwmds [] (by simp)
  have hmemv : ∀ c ∈ buildByInode pwmds, ∃ k, c ≠ [] ∧ ∀ m ∈ c, m.cachedIno = k := by
    intro c hc
    have hc2 : c ∈ (pwmds.foldl (fun acc p => insertByInode p acc) []).map
        Prod.snd := (sortDescLen_perm _).subset hc
    rcases List.mem_map.mp hc2 with ⟨e, he, hee⟩
    exact ⟨e.1, hee ▸ (hfold e he).1, hee ▸ (hfold e he).2⟩
  have hmempw : ∀ c ∈ buildByInode pwmds, ∀ m ∈ c, m ∈ pwmds := by
    intro c hc m hm
    have h := foldl_insert_flatten pwmds []
    simp only [List.map_nil, List.flatten_nil, List.append_nil] at h
    have hflat : m ∈ ((pwmds.foldl (fun acc p => insertByInode p acc) []).map
        Prod.snd).flatten :=
      List.mem_flatten.mpr ⟨c, (sortDescLen_perm _).subset hc, hm⟩
    exact h.subset hflat
  refine ⟨?_, ?_, ?_⟩
  · intro c hc
    obtain ⟨k, hne, _⟩ := hmemv c hc
    exact hne
  · intro c hc m hm
    obtain ⟨k, hne, hkm⟩ := hmemv c hc
    have hhead : (c.headD default).cachedIno = k := hkm _ (headD_mem c hne)
    have hm2 : m.cachedIno = k := hkm m hm
    refine ⟨?_, by rw [hm2, hhead]⟩
    rw [hlinks m (hmempw c hc m hm), hm2, hhead]
  · exact (buildByInode_perm pwmds).nodup_iff.mpr hnd

theorem run_one_size_preserves (o : Oracle) (cfg : Config)
    (hdry : cfg.dry_run = false)
    (hlc : ∀ p, o.linkOk p = true ∨ o.copyOk p = true)
    (pwmds : List PWMD) (fs : FS) (hfr : FR fs)
    (hlinks : ∀ x ∈ pwmds, fs.links x.path = some x.cachedIno)
    (hnd : (pwmds.map PWMD.path).Nodup) :
    Preserves fs (run_one_size o cfg pwmds fs).2.1 ∧
    FR (run_one_size o cfg pwmds fs).2.1 ∧
    (∀ p, p ∉ pwmds.map PWMD.path →
      (run_one_size o cfg pwmds fs).2.1.links p = fs.links p) := by
  have hCI := buildByInode_clusterInv fs pwmds hlinks hnd
  obtain ⟨hP, hFR, hFr⟩ := ml_preserves o cfg hdry hlc (buildByInode pwmds) 0 1
    fs (Nat.lt_succ_self 0) hfr hCI
  simp only [run_one_size]
  exact ⟨hP, hFR, fun p hp =>
    hFr p (fun hmem => hp ((buildByInode_perm pwmds).subset hmem))⟩

theorem runBuckets_preserves (o : Oracle) (cfg : Config)
    (hdry : cfg.dry_run = false)
    (hlc : ∀ p, o.linkOk p = true ∨ o.copyOk p = true) :
    ∀ (buckets : List (List PWMD)) (fs : FS), FR fs →
      (∀ b ∈ buckets, ∀ x ∈ b, fs.links x.path = some x.cachedIno) →
      (memberPaths buckets).Nodup →
      Preserves fs (runBuckets o cfg buckets fs).1 ∧
      FR (runBuckets o cfg buckets fs).1 ∧
      (∀ p, p ∉ memberPaths buckets →
        (runBuckets o cfg buckets fs).1.links p = fs.links p) := by
  intro buckets
  induction buckets with
  | nil =>
    intro fs hfr _ _
    simp only [runBuckets]
    exact ⟨Preserves.refl fs, hfr, fun p _ => trivial⟩
  | cons b rest ih =>
    intro fs hfr hlinks hnd
    rw [memberPaths_cons] at hnd
    have hndb : (b.map PWMD.path).Nodup := hnd.of_append_left
    have hdisj := List.disjoint_of_nodup_append hnd
    have hndr : (memberPaths rest).Nodup := hnd.of_append_right
    obtain ⟨hP1, hFR1, hFr1⟩ := run_one_size_preserves o cfg hdry hlc b fs hfr
      (hlinks b (by simp)) hndb
    have hlinks2 : ∀ b2 ∈ rest, ∀ x ∈ b2,
        (run_one_size o cfg b fs).2.1.links x.path = some x.cachedIno := by
      intro b2 hb2 x hx
      have hxp : x.path ∈ memberPaths rest := mem_of_memberPaths_sub hb2 hx
      have hnb : x.path ∉ b.map PWMD.path := fun hmem => hdisj hmem hxp
      rw [hFr1 x.path hnb]
      exact hlinks b2 (by simp [hb2]) x hx
    obtain ⟨hP2, hFR2, hFr2⟩ := ih (run_one_size o cfg b fs).2.1 hFR1
      hlinks2 hndr
    simp only [runBuckets]
    refine ⟨Preserves.trans hP1 hP2, hFR2, ?_⟩
    intro p hp
    have hpb : p ∉ b.map PWMD.path := fun h => hp
      (by rw [memberPaths_cons]; exact List.mem_append.mpr (Or.inl h))
    have hpr : p ∉ memberPaths rest := fun h => hp
      (by rw [memberPaths_cons]; exact List.mem_append.mpr (Or.inr h))
    rw [hFr2 p hpr, hFr1 p hpb]

/-! ### Positional worklist lemmas -/

theorem getD_set_ne {α : Type} (v : List α) (i k : Nat) (x d : α) (h : i ≠ k) :
    (v.set i x).getD k d = v.getD k d := by
  simp [List.getD_eq_getElem?_getD, List.getElem?_set_ne h]

theorem getD_set_eq {α : Type} (v : List α) (i : Nat) (x d : α)
    (h : i < v.length) : (v.set i x).getD i d = x := by
  simp [List.getD_eq_getElem?_getD, List.getElem?_set_self, h]

theorem getD_dropLast {α : Type} (v : List α) (k : Nat) (d : α)
    (h : k < v.length - 1) : v.dropLast.getD k d = v.getD k d := by
  rw [List.dropLast_eq_take]
  simp [List.getD_eq_getElem?_getD, List.getElem?_take_of_lt h]

theorem swapRemove_getD (v : List (List PWMD)) (x : List PWMD) (i j k : Nat)
    (hij : i < j) (hj : j < v.length) (hk : k < v.length - 1) :
    (swapRemove (v.set i x) j).getD k [] =
      if k = j then v.getD (v.length - 1) []
      else if k = i then x else v.getD k [] := by
  have hine : i ≠ v.length - 1 := by omega
  have hY : (v.set i x).getD ((v.set i x).length - 1) [] =
      v.getD (v.length - 1) [] := by
    rw [List.length_set]
    exact getD_set_ne v i (v.length - 1) x [] hine
  rw [swapRemove, hY, getD_dropLast _ k []
    (by rw [List.length_set, List.length_set]; exact hk)]
  by_cases hkj : k = j
  · subst hkj
    rw [if_pos rfl, getD_set_eq _ k _ [] (by rw [List.length_set]; exact hj)]
  · rw [if_neg hkj, getD_set_ne _ j k _ [] (fun h => hkj h.symm)]
    by_cases hki : k = i
    · subst hki
      rw [if_pos rfl, getD_set_eq v k x [] (by omega)]
    · rw [if_neg hki, getD_set_ne v i k x [] (fun h => hki h.symm)]

theorem headIno_swapRemove (v : List (List PWMD)) (x : List PWMD) (i j k : Nat)
    (hij : i < j) (hj : j < v.length) (hk : k < v.length - 1)
    (hx : (x.headD default).cachedIno = headIno v i) :
    headIno (swapRemove (v.set i x) j) k =
      headIno v (if k = j then v.length - 1 else k) := by
  rw [headIno, swapRemove_getD v x i j k hij hj hk]
  by_cases hkj : k = j
  · rw [if_pos hkj, if_pos hkj]
    rfl
  · rw [if_neg hkj, if_neg hkj]
    by_cases hki : k = i
    · rw [if_pos hki, hx, hki]
    · rw [if_neg hki]
      rfl

theorem headIno_live (fs : FS) (v : List (List PWMD)) (hinv : ClusterInv fs v)
    (hfr : FR fs) (k : Nat) (hk : k < v.length) : headIno v k < fs.nextIno := by
  obtain ⟨hne, hlink, _⟩ := hinv
  have hcm : v.getD k [] ∈ v := getD_mem [] v k hk
  exact hfr _ _ (hlink _ hcm _ (headD_mem _ (hne _ hcm))).1

theorem buildByInode_mem (pwmds : List PWMD) :
    ∀ c ∈ buildByInode pwmds, ∀ m ∈ c, m ∈ pwmds := by
  intro c hc m hm
  have h := foldl_insert_flatten pwmds []
  simp only [List.map_nil, List.flatten_nil, List.append_nil] at h
  exact h.subset (List.mem_flatten.mpr
    ⟨c, (sortDescLen_perm _).subset hc, hm⟩)

/-! ### All-success merge loop invariant -/

theorem ml_all (o : Oracle) (cfg : Config) (hdry : cfg.dry_run = false)
    (hall : ∀ p, o.removeOk p = true ∧ o.linkOk p = true ∧
      o.resetOk p = true ∧ o.openOk p = true)
    (g : FPath → Bytes) :
    ∀ (v : List (List PWMD)) (i j : Nat) (fs : FS), i < j → FR fs →
      ClusterInv fs v → ClusterVal g fs v →
      (∀ a b, a < b → b < v.length → a < i →
        fs.content (headIno v a) ≠ fs.content (headIno v b)) →
      (∀ b, i < b → b < j → b < v.length →
        fs.content (headIno v i) ≠ fs.content (headIno v b)) →
      ClusterInv (mergeLoop o cfg v i j fs).2.1 (mergeLoop o cfg v i j fs).1 ∧
      ClusterVal g (mergeLoop o cfg v i j fs).2.1 (mergeLoop o cfg v i j fs).1 ∧
      (∀ a b, a < b → b < (mergeLoop o cfg v i j fs).1.length →
        (mergeLoop o cfg v i j fs).2.1.content
          (headIno (mergeLoop o cfg v i j fs).1 a) ≠
        (mergeLoop o cfg v i j fs).2.1.content
          (headIno (mergeLoop o cfg v i j fs).1 b)) ∧
      (memberPaths (mergeLoop o cfg v i j fs).1).Perm (memberPaths v) := by
  intro v i j fs
  induction v, i, j, fs using mergeLoop_ind o cfg with
  | case1 v i j fs hi hj hg =>
    intro hij hfr hinv hVal hP1 hP2
    have hs := (get2mut_isSome v i j).mpr ⟨hij, hj⟩
    rw [hg] at hs
    simp at hs
  | case2 v i j fs hi hj keeps replaces hg hres ih =>
    intro hij hfr hinv hVal hP1 hP2
    have hge := get2mut_eq [] v i j hij hj
    rw [hg] at hge
    have hkeq : keeps = v.getD i [] ∧ replaces = v.getD j [] := by
      injection hge with h
      exact ⟨congrArg Prod.fst h, congrArg Prod.snd h⟩
    have hall3 : ∀ x ∈ replaces, o.removeOk x.path = true ∧
        o.linkOk x.path = true ∧ o.resetOk x.path = true :=
      fun x _ => ⟨(hall x.path).1, (hall x.path).2.1, (hall x.path).2.2.1⟩
    obtain ⟨⟨tail, htl, hsub, hallp⟩, hFR2, hCI2, hpres, hframe, hnext, hcont,
        hmP⟩ :=
      merge_step o cfg hdry v i j fs keeps replaces hij hj hkeq.1 hkeq.2
        hfr hinv hres
    have htp : tail.map PWMD.path = replaces.map PWMD.path := hallp hall3
    have hmPa := hmP hall3
    have hcmp : (cmp o fs (replaces.headD default).path
        (keeps.headD default).path).getD false = true := by
      rw [← hardlink_all_fst o cfg keeps replaces fs]
      exact hres
    have hkeepsv : keeps ∈ v := hkeq.1 ▸ getD_mem [] v i (Nat.lt_trans hij hj)
    have hrepv : replaces ∈ v := hkeq.2 ▸ getD_mem [] v j hj
    have hkne : keeps ≠ [] := hinv.1 _ hkeepsv
    have hrne : replaces ≠ [] := hinv.1 _ hrepv
    have hkh := (hinv.2.1 keeps hkeepsv _ (headD_mem keeps hkne)).1
    have hrh := (hinv.2.1 replaces hrepv _ (headD_mem replaces hrne)).1
    have hcontent_eq : fs.content ((replaces.headD default).cachedIno) =
        fs.content ((keeps.headD default).cachedIno) :=
      cmp_true_content o fs _ _ _ _ hrh hkh hcmp
    rw [htl] at hCI2 hmPa ih
    rw [mergeLoop_eq_merged o cfg v i j fs hi hj keeps replaces hg hres]
    rw [htl]
    have hxhead : ((keeps ++ tail).headD default).cachedIno = headIno v i := by
      rw [headD_append keeps tail hkne, headIno, ← hkeq.1]
    have hstab : ∀ k, k < v.length →
        (hardlink_all o cfg keeps replaces fs).2.2.1.content (headIno v k) =
          fs.content (headIno v k) :=
      fun k hk => hcont _ (headIno_live fs v hinv hfr k hk)
    have hV2mem : ∀ c ∈ swapRemove (v.set i (keeps ++ tail)) j,
        c ∈ v ∨ c = keeps ++ tail := by
      intro c hc
      have h1 := mem_swapRemove _ j c hc
      rcases List.mem_or_eq_of_mem_set h1 with h | h
      · exact Or.inl h
      · exact Or.inr h
    have hVal2 : ClusterVal g (hardlink_all o cfg keeps replaces fs).2.2.1
        (swapRemove (v.set i (keeps ++ tail)) j) := by
      intro c hc m hm
      rcases hV2mem c hc with h | h
      · have hlive : (c.headD default).cachedIno < fs.nextIno :=
          hfr _ _ (hinv.2.1 c h _ (headD_mem c (hinv.1 c h))).1
        rw [hcont _ hlive]
        exact hVal c h m hm
      · subst h
        rw [headD_append keeps tail hkne]
        rw [hcont _ (hfr _ _ hkh)]
        rcases List.mem_append.mp hm with hmk | hmt
        · exact hVal keeps hkeepsv m hmk
        · have hmp2 : m.path ∈ replaces.map PWMD.path :=
            htp ▸ List.mem_map.mpr ⟨m, hmt, rfl⟩
          rcases List.mem_map.mp hmp2 with ⟨x, hx, hxe⟩
          have hvx := hVal replaces hrepv x hx
          rw [← hxe, ← hvx]
          exact hcontent_eq.symm
    have hP1' : ∀ a b, a < b → b < (swapRemove (v.set i (keeps ++ tail)) j).length →
        a < i →
        (hardlink_all o cfg keeps replaces fs).2.2.1.content
          (headIno (swapRemove (v.set i (keeps ++ tail)) j) a) ≠
        (hardlink_all o cfg keeps replaces fs).2.2.1.content
          (headIno (swapRemove (v.set i (keeps ++ tail)) j) b) := by
      intro a b hab hb ha
      rw [swapRemove_length, List.length_set] at hb
      have ha' : a < v.length - 1 := Nat.lt_trans hab hb
      rw [headIno_swapRemove v (keeps ++ tail) i j a hij hj ha' hxhead,
          headIno_swapRemove v (keeps ++ tail) i j b hij hj hb hxhead]
      rw [if_neg (show ¬ a = j by omega)]
      by_cases hbj : b = j
      · rw [if_pos hbj]
        rw [hstab a (by omega), hstab (v.length - 1) (by omega)]
        exact hP1 a (v.length - 1) (by omega) (by omega) ha
      · rw [if_neg hbj]
        rw [hstab a (by omega), hstab b (by omega)]
        exact hP1 a b hab (by omega) ha
    have hP2' : ∀ b, i < b → b < j →
        b < (swapRemove (v.set i (keeps ++ tail)) j).length →
        (hardlink_all o cfg keeps replaces fs).2.2.1.content
          (headIno (swapRemove (v.set i (keeps ++ tail)) j) i) ≠
        (hardlink_all o cfg keeps replaces fs).2.2.1.content
          (headIno (swapRemove (v.set i (keeps ++ tail)) j) b) := by
      intro b hib hbj hb
      rw [swapRemove_length, List.length_set] at hb
      have hi' : i < v.length - 1 := by omega
      rw [headIno_swapRemove v (keeps ++ tail) i j i hij hj hi' hxhead,
          headIno_swapRemove v (keeps ++ tail) i j b hij hj hb hxhead]
      rw [if_neg (show ¬ i = j by omega), if_neg (show ¬ b = j by omega)]
      rw [hstab i (by omega), hstab b (by omega)]
      exact hP2 b hib hbj (by omega)
    obtain ⟨ihCI, ihVal, ihDist, ihPerm⟩ := ih hij hFR2 hCI2 hVal2 hP1' hP2'
    exact ⟨ihCI, ihVal, ihDist, ihPerm.trans hmPa⟩
  | case3 v i j fs hi hj keeps replaces hg hres ih =>
    intro hij hfr hinv hVal hP1 hP2
    have hge := get2mut_eq [] v i j hij hj
    rw [hg] at hge
    have hkeq : keeps = v.getD i [] ∧ replaces = v.getD j [] := by
      injection hge with h
      exact ⟨congrArg Prod.fst h, congrArg Prod.snd h⟩
    have hkeepsv : keeps ∈ v := hkeq.1 ▸ getD_mem [] v i (Nat.lt_trans hij hj)
    have hrepv : replaces ∈ v := hkeq.2 ▸ getD_mem [] v j hj
    have hkne : keeps ≠ [] := hinv.1 _ hkeepsv
    have hrne : replaces ≠ [] := hinv.1 _ hrepv
    have hkh := (hinv.2.1 keeps hkeepsv _ (headD_mem keeps hkne)).1
    have hrh := (hinv.2.1 replaces hrepv _ (headD_mem replaces hrne)).1
    have hcmpf : ¬ (cmp o fs (replaces.headD default).path
        (keeps.headD default).path).getD false = true := by
      rw [hardlink_all_fst o cfg keeps replaces fs] at hres
      exact hres
    have hopen : (o.openOk (replaces.headD default).path &&
        o.openOk (keeps.headD default).path) = true := by
      rw [(hall _).2.2.2, (hall _).2.2.2]
      rfl
    rw [cmp, if_pos hopen, hrh, hkh] at hcmpf
    simp only [Option.getD_some] at hcmpf
    have hneq : fs.content ((replaces.headD default).cachedIno) ≠
        fs.content ((keeps.headD default).cachedIno) :=
      fun h => hcmpf ((cmp_read_fileChunks_iff _ _).mpr h)
    have hP2e : ∀ b, i < b → b < j + 1 → b < v.length →
        fs.content (headIno v i) ≠ fs.content (headIno v b) := by
      intro b hib hbj hb
      by_cases hbj2 : b = j
      · subst hbj2
        have hhi : headIno v i = (keeps.headD default).cachedIno := by
          rw [headIno, ← hkeq.1]
        have hhj : headIno v b = (replaces.headD default).cachedIno := by
          rw [headIno, ← hkeq.2]
        rw [hhi, hhj]
        exact Ne.symm hneq
      · exact hP2 b hib (by omega) hb
    have hfalse := hardlink_all_false o cfg keeps replaces fs
      (by rw [cmp, if_pos hopen, hrh, hkh]; simpa using hcmpf)
    have h21 : (hardlink_all o cfg keeps replaces fs).2.1 = keeps := by
      rw [hfalse]
    have h221 : (hardlink_all o cfg keeps replaces fs).2.2.1 = fs := by
      rw [hfalse]
    have hv2 : v.set i (hardlink_all o cfg keeps replaces fs).2.1 = v := by
      rw [h21, hkeq.1, set_getD_self]
    rw [mergeLoop_eq_unmerged o cfg v i j fs hi hj keeps replaces hg hres]
    rw [hv2, h221] at ih ⊢
    exact ih (Nat.lt_succ_of_lt hij) hfr hinv hVal hP1 hP2e
  | case4 v i j fs hi hj ih =>
    intro hij hfr hinv hVal hP1 hP2
    rw [mergeLoop_eq_inner_done o cfg v i j fs hi hj]
    have hP1' : ∀ a b, a < b → b < v.length → a < i + 1 →
        fs.content (headIno v a) ≠ fs.content (headIno v b) := by
      intro a b hab hb ha
      by_cases hai : a < i
      · exact hP1 a b hab hb hai
      · have hae : a = i := by omega
        subst hae
        exact hP2 b hab (by omega) hb
    have hP2' : ∀ b, i + 1 < b → b < i + 2 → b < v.length →
        fs.content (headIno v (i + 1)) ≠ fs.content (headIno v b) := by
      intro b h1 h2 _
      exact absurd h1 (by omega)
    exact ih (Nat.lt_succ_self _) hfr hinv hVal hP1' hP2'
  | case5 v i j fs hi =>
    intro hij hfr hinv hVal hP1 hP2
    rw [mergeLoop_eq_outer_done o cfg v i j fs hi]
    refine ⟨hinv, hVal, fun a b hab hb => ?_, List.Perm.refl _⟩
    have hb' : b < v.length := hb
    exact hP1 a b hab hb' (by omega)

/-! ### Comparison pair lemmas -/

theorem unorderedPair_comm (a b : FPath) : unorderedPair a b = unorderedPair b a := by
  unfold unorderedPair
  split_ifs with h1 h2 h2
  · rw [Nat.le_antisymm h1 h2]
  · rfl
  · rfl
  · exact absurd (Nat.le_of_lt (Nat.lt_of_not_le h1)) h2

theorem unorderedPair_eq (a b c d : FPath)
    (h : unorderedPair a b = unorderedPair c d) :
    (a = c ∧ b = d) ∨ (a = d ∧ b = c) := by
  unfold unorderedPair at h
  split_ifs at h with h1 h2 h2
  · injection h with h3 h4
    exact Or.inl ⟨h3, h4⟩
  · injection h with h3 h4
    exact Or.inr ⟨h3, h4⟩
  · injection h with h3 h4
    exact Or.inr ⟨h4, h3⟩
  · injection h with h3 h4
    exact Or.inl ⟨h4, h3⟩

theorem cmpPairs_append (t1 t2 : List Ev) :
    cmpPairs (t1 ++ t2) = cmpPairs t1 ++ cmpPairs t2 :=
  List.filterMap_append t1 t2 _

theorem cmpPairs_cons_cmp (p q : FPath) (t : List Ev) :
    cmpPairs (Ev.cmpEv p q :: t) = unorderedPair p q :: cmpPairs t := rfl

theorem hardlinkMembers_no_cmp (o : Oracle) (cfg : Config) :
    ∀ (rs ks : List PWMD) (fs : FS) (p q : FPath),
      Ev.cmpEv p q ∉ (hardlinkMembers o cfg rs ks fs).2.2 := by
  intro rs
  induction rs with
  | nil => intro ks fs p q; simp [hardlinkMembers]
  | cons r rs ih =>
    intro ks fs p q
    rw [hardlinkMembers]
    split
    · exact ih (ks ++ [r]) fs p q
    · rcases hres : hardlink o (ks.headD default) r fs with ⟨or2, fs2, evs⟩
      have htr := hardlink_trace o (ks.headD default) r fs
      rw [hres] at htr
      cases or2 with
      | some r2 =>
        simp only [hres]
        intro hmem
        rcases List.mem_append.mp hmem with h | h
        · rcases htr _ h with h1 | h1 | h1 <;> simp at h1
        · exact ih (ks ++ [r2]) fs2 p q h
      | none =>
        simp only [hres]
        intro hmem
        rcases List.mem_append.mp hmem with h | h
        · rcases htr _ h with h1 | h1 | h1 <;> simp at h1
        · exact ih ks fs2 p q h

theorem cmpPairs_hardlinkMembers (o : Oracle) (cfg : Config)
    (rs ks : List PWMD) (fs : FS) :
    cmpPairs (hardlinkMembers o cfg rs ks fs).2.2 = [] := by
  rw [cmpPairs, List.filterMap_eq_nil_iff]
  intro e he
  cases e with
  | cmpEv p q => exact absurd he (hardlinkMembers_no_cmp o cfg rs ks fs p q)
  | removeEv p => rfl
  | linkEv a b => rfl
  | copyEv a b => rfl
  | panicEv => rfl

theorem hardlinkMembers_prefix (o : Oracle) (cfg : Config) :
    ∀ (rs ks : List PWMD) (fs : FS),
      ∃ tail, (hardlinkMembers o cfg rs ks fs).1 = ks ++ tail := by
  intro rs
  induction rs with
  | nil => intro ks fs; exact ⟨[], by simp [hardlinkMembers]⟩
  | cons r rs ih =>
    intro ks fs
    rw [hardlinkMembers]
    split
    · obtain ⟨t, ht⟩ := ih (ks ++ [r]) fs
      exact ⟨r :: t, by rw [ht, List.append_assoc, List.singleton_append]⟩
    · rcases hres : hardlink o (ks.headD default) r fs with ⟨or2, fs2, evs⟩
      cases or2 with
      | some r2 =>
        obtain ⟨t, ht⟩ := ih (ks ++ [r2]) fs2
        refine ⟨r2 :: t, ?_⟩
        show (hardlinkMembers o cfg rs (ks ++ [r2]) fs2).1 = ks ++ r2 :: t
        rw [ht, List.append_assoc, List.singleton_append]
      | none =>
        obtain ⟨t, ht⟩ := ih ks fs2
        refine ⟨t, ?_⟩
        show (hardlinkMembers o cfg rs ks fs2).1 = ks ++ t
        exact ht

theorem hardlink_all_prefix (o : Oracle) (cfg : Config)
    (keeps replaces : List PWMD) (fs : FS) :
    ∃ tail, (hardlink_all o cfg keeps replaces fs).2.1 = keeps ++ tail := by
  simp only [hardlink_all]
  split
  · obtain ⟨t, ht⟩ := hardlinkMembers_prefix o cfg replaces keeps fs
    refine ⟨t, ?_⟩
    show (hardlinkMembers o cfg replaces keeps fs).1 = keeps ++ t
    exact ht
  · exact ⟨[], by simp⟩

theorem headPath_sep (v : List (List PWMD)) (a b : Nat)
    (hab : a < b) (hb : b < v.length)
    (hne : ∀ c ∈ v, c ≠ []) (hnd : (memberPaths v).Nodup) :
    headPath v a ≠ headPath v b := by
  obtain ⟨A, B, C, hv, hA2, hAB⟩ := two_split [] v a b hab hb
  have hmp0 : memberPaths v =
      memberPaths A ++ ((v.getD a []).map PWMD.path ++
        (memberPaths B ++ ((v.getD b []).map PWMD.path ++ memberPaths C))) := by
    conv_lhs => rw [hv]
    rw [memberPaths_append, memberPaths_cons, memberPaths_append, memberPaths_cons]
  have hndv := hmp0 ▸ hnd
  have hnd1 : ((memberPaths A ++ (v.getD a []).map PWMD.path ++ memberPaths B) ++
      ((v.getD b []).map PWMD.path ++ memberPaths C)).Nodup := by
    simpa [List.append_assoc] using hndv
  have hdisj := List.disjoint_of_nodup_append hnd1
  intro heq
  have hane : v.getD a [] ≠ [] := hne _ (getD_mem [] v a (Nat.lt_trans hab hb))
  have hbne : v.getD b [] ≠ [] := hne _ (getD_mem [] v b hb)
  have h1 : headPath v a ∈
      memberPaths A ++ (v.getD a []).map PWMD.path ++ memberPaths B :=
    List.mem_append.mpr (Or.inl (List.mem_append.mpr (Or.inr
      (List.mem_map.mpr ⟨_, headD_mem _ hane, rfl⟩))))
  have h2 : headPath v b ∈ (v.getD b []).map PWMD.path ++ memberPaths C :=
    List.mem_append.mpr (Or.inl (List.mem_map.mpr ⟨_, headD_mem _ hbne, rfl⟩))
  exact hdisj h1 (heq ▸ h2)

theorem headPath_swapRemove (v : List (List PWMD)) (x : List PWMD) (i j k : Nat)
    (hij : i < j) (hj : j < v.length) (hk : k < v.length - 1)
    (hx : (x.headD default).path = headPath v i) :
    headPath (swapRemove (v.set i x) j) k =
      headPath v (if k = j then v.length - 1 else k) := by
  rw [headPath, swapRemove_getD v x i j k hij hj hk]
  by_cases hkj : k = j
  · rw [if_pos hkj, if_pos hkj]
    rfl
  · rw [if_neg hkj, if_neg hkj]
    by_cases hki : k = i
    · rw [if_pos hki, hx, hki]
    · rw [if_neg hki]
      rfl

theorem buildByInode_ne (pwmds : List PWMD) :
    ∀ c ∈ buildByInode pwmds, c ≠ [] := by
  intro c hc
  have hfold := foldl_insert_coherent pwmds [] (by simp)
  have hc2 : c ∈ (pwmds.foldl (fun acc p => insertByInode p acc) []).map
      Prod.snd := (sortDescLen_perm _).subset hc
  rcases List.mem_map.mp hc2 with ⟨e, he, hee⟩
  exact hee ▸ (hfold e he).1

theorem ml_cmp_pairs (o : Oracle) (cfg : Config) :
    ∀ (v : List (List PWMD)) (i j : Nat) (fs : FS), i < j →
      (∀ c ∈ v, c ≠ []) →
      (∀ a b, a < v.length → b < v.length → headPath v a = headPath v b →
        a = b) →
      (∀ q ∈ cmpPairs (mergeLoop o cfg v i j fs).2.2,
        ∃ a b, i ≤ a ∧ a < b ∧ b < v.length ∧ (a = i → j ≤ b) ∧
          q = unorderedPair (headPath v a) (headPath v b)) ∧
      (cmpPairs (mergeLoop o cfg v i j fs).2.2).Nodup := by
  intro v i j fs
  induction v, i, j, fs using mergeLoop_ind o cfg with
  | case1 v i j fs hi hj hg =>
    intro hij hne hinj
    have hs := (get2mut_isSome v i j).mpr ⟨hij, hj⟩
    rw [hg] at hs
    simp at hs
  | case2 v i j fs hi hj keeps replaces hg hres ih =>
    intro hij hne hinj
    have hge := get2mut_eq [] v i j hij hj
    rw [hg] at hge
    have hkeq : keeps = v.getD i [] ∧ replaces = v.getD j [] := by
      injection hge with h
      exact ⟨congrArg Prod.fst h, congrArg Prod.snd h⟩
    have hkne : keeps ≠ [] := hne _ (hkeq.1 ▸ getD_mem [] v i (Nat.lt_trans hij hj))
    obtain ⟨tail, htl⟩ := hardlink_all_prefix o cfg keeps replaces fs
    have hcmp : (cmp o fs (replaces.headD default).path
        (keeps.headD default).path).getD false = true := by
      rw [← hardlink_all_fst o cfg keeps replaces fs]
      exact hres
    obtain ⟨hc1, hc2, hc3⟩ := hardlink_all_components o cfg keeps replaces fs hcmp
    have hstep : cmpPairs (hardlink_all o cfg keeps replaces fs).2.2.2 =
        [unorderedPair (replaces.headD default).path (keeps.headD default).path] := by
      rw [hc3, cmpPairs_cons_cmp, cmpPairs_hardlinkMembers]
    rw [htl] at ih
    rw [mergeLoop_eq_merged o cfg v i j fs hi hj keeps replaces hg hres, htl]
    rw [cmpPairs_append, hstep, List.singleton_append]
    have hlen1 : (swapRemove (v.set i (keeps ++ tail)) j).length = v.length - 1 := by
      rw [swapRemove_length, List.length_set]
    have hxh : ((keeps ++ tail).headD default).path = headPath v i := by
      rw [headD_append keeps tail hkne, headPath, ← hkeq.1]
    have hs2 : ∀ k, k < v.length - 1 →
        headPath (swapRemove (v.set i (keeps ++ tail)) j) k =
          headPath v (if k = j then v.length - 1 else k) :=
      fun k hk => headPath_swapRemove v (keeps ++ tail) i j k hij hj hk hxh
    have hne2 : ∀ c ∈ swapRemove (v.set i (keeps ++ tail)) j, c ≠ [] := by
      intro c hc
      rcases List.mem_or_eq_of_mem_set (mem_swapRemove _ j c hc) with h | h
      · exact hne c h
      · subst h
        cases keeps with
        | nil => exact absurd rfl hkne
        | cons a as => simp
    have hinj2 : ∀ a b, a < (swapRemove (v.set i (keeps ++ tail)) j).length →
        b < (swapRemove (v.set i (keeps ++ tail)) j).length →
        headPath (swapRemove (v.set i (keeps ++ tail)) j) a =
          headPath (swapRemove (v.set i (keeps ++ tail)) j) b → a = b := by
      intro a b ha hb heq
      rw [hlen1] at ha hb
      rw [hs2 a ha, hs2 b hb] at heq
      by_cases haj : a = j
      · by_cases hbj : b = j
        · omega
        · rw [if_pos haj, if_neg hbj] at heq
          have := hinj (v.length - 1) b (by omega) (by omega) heq
          omega
      · by_cases hbj : b = j
        · rw [if_neg haj, if_pos hbj] at heq
          have := hinj a (v.length - 1) (by omega) (by omega) heq
          omega
        · rw [if_neg haj, if_neg hbj] at heq
          exact hinj a b (by omega) (by omega) heq
    obtain ⟨ihA, ihND⟩ := ih hij hne2 hinj2
    have hp0 : unorderedPair (replaces.headD default).path
        (keeps.headD default).path =
        unorderedPair (headPath v j) (headPath v i) := by
      rw [headPath, headPath, ← hkeq.1, ← hkeq.2]
    constructor
    · intro q hq
      rcases List.mem_cons.mp hq with h | h
      · refine ⟨i, j, Nat.le_refl i, hij, hj, fun _ => Nat.le_refl j, ?_⟩
        rw [h, hp0]
        exact unorderedPair_comm _ _
      · obtain ⟨a2, b2, ha1, hab, hb2, hcond, hqe⟩ := ihA q h
        rw [hlen1] at hb2
        rw [hs2 a2 (by omega), hs2 b2 hb2] at hqe
        by_cases hbj : b2 = j
        · rw [if_pos hbj, if_neg (show ¬ a2 = j by omega)] at hqe
          exact ⟨a2, v.length - 1, ha1, by omega, by omega,
            fun _ => by omega, hqe⟩
        · by_cases haj : a2 = j
          · rw [if_pos haj, if_neg hbj] at hqe
            refine ⟨b2, v.length - 1, by omega, by omega, by omega,
              fun hbi => by omega, ?_⟩
            exact hqe.trans (unorderedPair_comm _ _)
          · rw [if_neg haj, if_neg hbj] at hqe
            exact ⟨a2, b2, ha1, hab, by omega, hcond, hqe⟩
    · refine List.nodup_cons.mpr ⟨?_, ihND⟩
      intro hmem
      obtain ⟨a2, b2, ha1, hab, hb2, hcond, hqe⟩ := ihA _ hmem
      rw [hlen1] at hb2
      rw [hs2 a2 (by omega), hs2 b2 hb2, hp0] at hqe
      by_cases hbj : b2 = j
      · rw [if_pos hbj, if_neg (show ¬ a2 = j by omega)] at hqe
        rcases unorderedPair_eq _ _ _ _ hqe with ⟨h1, _⟩ | ⟨h1, _⟩
        · have := hinj j a2 hj (by omega) h1
          omega
        · have := hinj j (v.length - 1) hj (by omega) h1
          omega
      · by_cases haj : a2 = j
        · rw [if_pos haj, if_neg hbj] at hqe
          rcases unorderedPair_eq _ _ _ _ hqe with ⟨h1, _⟩ | ⟨h1, _⟩
          · have := hinj j (v.length - 1) hj (by omega) h1
            omega
          · have := hinj j b2 hj (by omega) h1
            omega
        · rw [if_neg haj, if_neg hbj] at hqe
          rcases unorderedPair_eq _ _ _ _ hqe with ⟨h1, _⟩ | ⟨h1, _⟩
          · have := hinj j a2 hj (by omega) h1
            omega
          · have := hinj j b2 hj (by omega) h1
            omega
  | case3 v i j fs hi hj keeps replaces hg hres ih =>
    intro hij hne hinj
    have hge := get2mut_eq [] v i j hij hj
    rw [hg] at hge
    have hkeq : keeps = v.getD i [] ∧ replaces = v.getD j [] := by
      injection hge with h
      exact ⟨congrArg Prod.fst h, congrArg Prod.snd h⟩
    have hcmpf : ¬ (cmp o fs (replaces.headD default).path
        (keeps.headD default).path).getD false = true := by
      rw [hardlink_all_fst o cfg keeps replaces fs] at hres
      exact hres
    have hfalse := hardlink_all_false o cfg keeps replaces fs hcmpf
    have h21 : (hardlink_all o cfg keeps replaces fs).2.1 = keeps := by
      rw [hfalse]
    have h221 : (hardlink_all o cfg keeps replaces fs).2.2.1 = fs := by
      rw [hfalse]
    have h222 : (hardlink_all o cfg keeps replaces fs).2.2.2 =
        [Ev.cmpEv (replaces.headD default).path (keeps.headD default).path] := by
      rw [hfalse]
    have hv2 : v.set i (hardlink_all o cfg keeps replaces fs).2.1 = v := by
      rw [h21, hkeq.1, set_getD_self]
    rw [mergeLoop_eq_unmerged o cfg v i j fs hi hj keeps replaces hg hres]
    rw [hv2, h221] at ih ⊢
    rw [h222, cmpPairs_append, cmpPairs_cons_cmp]
    rw [show cmpPairs [] = [] from rfl, List.singleton_append]
    obtain ⟨ihA, ihND⟩ := ih (Nat.lt_succ_of_lt hij) hne hinj
    have hp0 : unorderedPair (replaces.headD default).path
        (keeps.headD default).path =
        unorderedPair (headPath v j) (headPath v i) := by
      rw [headPath, headPath, ← hkeq.1, ← hkeq.2]
    constructor
    · intro q hq
      rcases List.mem_cons.mp hq with h | h
      · refine ⟨i, j, Nat.le_refl i, hij, hj, fun _ => Nat.le_refl j, ?_⟩
        rw [h, hp0]
        exact unorderedPair_comm _ _
      · obtain ⟨a2, b2, ha1, hab, hb2, hcond, hqe⟩ := ihA q h
        exact ⟨a2, b2, ha1, hab, hb2,
          fun hai => Nat.le_of_succ_le (hcond hai), hqe⟩
    · refine List.nodup_cons.mpr ⟨?_, ihND⟩
      intro hmem
      obtain ⟨a2, b2, ha1, hab, hb2, hcond, hqe⟩ := ihA _ hmem
      rw [hp0] at hqe
      rcases unorderedPair_eq _ _ _ _ hqe with ⟨h1, h2⟩ | ⟨h1, h2⟩
      · have hja := hinj j a2 hj (by omega) h1
        have hib := hinj i b2 (by omega) (by omega) h2
        omega
      · have hjb := hinj j b2 hj (by omega) h1
        have hia := hinj i a2 (by omega) (by omega) h2
        omega
  | case4 v i j fs hi hj ih =>
    intro hij hne hinj
    rw [mergeLoop_eq_inner_done o cfg v i j fs hi hj]
    obtain ⟨ihA, ihND⟩ := ih (Nat.lt_succ_self _) hne hinj
    refine ⟨?_, ihND⟩
    intro q hq
    obtain ⟨a2, b2, ha1, hab, hb2, hcond, hqe⟩ := ihA q hq
    exact ⟨a2, b2, by omega, hab, hb2, fun h => by omega, hqe⟩
  | case5 v i j fs hi =>
    intro hij hne hinj
    rw [mergeLoop_eq_outer_done o cfg v i j fs hi]
    exact ⟨fun q hq => absurd hq (List.not_mem_nil q), List.nodup_nil⟩

/-! ### C8 -/

/-- C8: within one size bucket the double-cursor merge loop performs at most
one byte-content comparison per unordered pair of clusters, never per pair of
files: every comparison recorded in the trace is between the representative
(head) paths of two distinct clusters of the initial inode-cluster worklist,
and no unordered pair of representatives occurs twice — so two clusters that
compared unequal are never compared against each other again, despite the
worklist being compacted by swap-removal as merges happen. -/
theorem c8_cluster_compare_once (o : Oracle) (cfg : Config)
    (pwmds : List PWMD) (fs : FS)
    (hnd : (pwmds.map PWMD.path).Nodup) :
    (cmpPairs (run_one_size o cfg pwmds fs).2.2).Nodup ∧
    (∀ q ∈ cmpPairs (run_one_size o cfg pwmds fs).2.2,
      ∃ a b, a < b ∧ b < (buildByInode pwmds).length ∧
        q = unorderedPair (headPath (buildByInode pwmds) a)
          (headPath (buildByInode pwmds) b)) := by
  simp only [run_one_size]
  have hne0 := buildByInode_ne pwmds
  have hnd0 : (memberPaths (buildByInode pwmds)).Nodup :=
    (buildByInode_perm pwmds).nodup_iff.mpr hnd
  have hinj0 : ∀ a b, a < (buildByInode pwmds).length →
      b < (buildByInode pwmds).length →
      headPath (buildByInode pwmds) a = headPath (buildByInode pwmds) b →
      a = b := by
    intro a b ha hb heq
    by_contra hab
    rcases Nat.lt_or_gt_of_ne hab with h | h
    · exact headPath_sep _ a b h hb hne0 hnd0 heq
    · exact headPath_sep _ b a h ha hne0 hnd0 heq.symm
  obtain ⟨hA, hND⟩ := ml_cmp_pairs o cfg (buildByInode pwmds) 0 1 fs
    (Nat.lt_succ_self 0) hne0 hinj0
  refine ⟨hND, ?_⟩
  intro q hq
  obtain ⟨a, b, _, hab, hb, _, hqe⟩ := hA q hq
  exact ⟨a, b, hab, hb, hqe⟩

/-- C8 witness: the once-per-cluster-pair property applied to the concrete
two-cluster bucket on the example filesystem. -/
theorem c8_witness :
    (([(⟨1, 10⟩ : PWMD), ⟨2, 20⟩].map PWMD.path).Nodup) ∧
    ((cmpPairs (run_one_size allOk ⟨false, 1⟩ [⟨1, 10⟩, ⟨2, 20⟩] exFS).2.2).Nodup ∧
     (∀ q ∈ cmpPairs (run_one_size allOk ⟨false, 1⟩ [⟨1, 10⟩, ⟨2, 20⟩] exFS).2.2,
       ∃ a b, a < b ∧ b < (buildByInode [⟨1, 10⟩, ⟨2, 20⟩]).length ∧
         q = unorderedPair (headPath (buildByInode [⟨1, 10⟩, ⟨2, 20⟩]) a)
           (headPath (buildByInode [⟨1, 10⟩, ⟨2, 20⟩]) b))) :=
  ⟨by decide, c8_cluster_compare_once allOk ⟨false, 1⟩ [⟨1, 10⟩, ⟨2, 20⟩] exFS
    (by decide)⟩

/-! ### C1 -/

/-- C1: for every pair of registered records of one size bucket with
byte-identical content, after a non-dry-run merge pass in which every
filesystem operation succeeds, both paths resolve to the same inode; the
statement holds for arbitrary pairs of the bucket, so the merge is
transitive across all byte-equal inode clusters of the bucket. -/
theorem c1_duplicates_same_inode (o : Oracle) (cfg : Config)
    (hdry : cfg.dry_run = false)
    (hall : ∀ p, o.removeOk p = true ∧ o.linkOk p = true ∧
      o.resetOk p = true ∧ o.openOk p = true)
    (pwmds : List PWMD) (fs : FS) (hfr : FR fs)
    (hlinks : ∀ x ∈ pwmds, fs.links x.path = some x.cachedIno)
    (hnd : (pwmds.map PWMD.path).Nodup)
    (x y : PWMD) (hx : x ∈ pwmds) (hy : y ∈ pwmds)
    (heq : fs.content x.cachedIno = fs.content y.cachedIno) :
    ∃ k, (run_one_size o cfg pwmds fs).2.1.links x.path = some k ∧
         (run_one_size o cfg pwmds fs).2.1.links y.path = some k := by
  simp only [run_one_size]
  have hCI := buildByInode_clusterInv fs pwmds hlinks hnd
  have hVal : ClusterVal (fun p => fs.content ((fs.links p).getD 0)) fs
      (buildByInode pwmds) := by
    intro c hc m hm
    have hmm : m ∈ pwmds := buildByInode_mem pwmds c hc m hm
    show fs.content ((c.headD default).cachedIno) =
      fs.content ((fs.links m.path).getD 0)
    rw [hlinks m hmm]
    have hcache := (hCI.2.1 c hc m hm).2
    rw [show ((some m.cachedIno).getD 0) = m.cachedIno from rfl, hcache]
  obtain ⟨hCIf, hValf, hDistf, hPermf⟩ := ml_all o cfg hdry hall
    (fun p => fs.content ((fs.links p).getD 0)) (buildByInode pwmds) 0 1 fs
    (Nat.lt_succ_self 0) hfr hCI hVal
    (fun a b _ _ ha => absurd ha (by omega))
    (fun b h1 h2 _ => absurd h2 (by omega))
  have hxp : x.path ∈ memberPaths (mergeLoop o cfg (buildByInode pwmds) 0 1 fs).1 :=
    hPermf.symm.subset ((buildByInode_perm pwmds).symm.subset
      (List.mem_map.mpr ⟨x, hx, rfl⟩))
  have hyp : y.path ∈ memberPaths (mergeLoop o cfg (buildByInode pwmds) 0 1 fs).1 :=
    hPermf.symm.subset ((buildByInode_perm pwmds).symm.subset
      (List.mem_map.mpr ⟨y, hy, rfl⟩))
  obtain ⟨cx, hcx, mx, hmx, hmxe⟩ := (mem_memberPaths _ _).mp hxp
  obtain ⟨cy, hcy, my, hmy, hmye⟩ := (mem_memberPaths _ _).mp hyp
  have hlx := (hCIf.2.1 cx hcx mx hmx).1
  have hly := (hCIf.2.1 cy hcy my hmy).1
  have hvx := hValf cx hcx mx hmx
  have hvy := hValf cy hcy my hmy
  by_cases hk : (cx.headD default).cachedIno = (cy.headD default).cachedIno
  · exact ⟨(cx.headD default).cachedIno, hmxe ▸ hlx,
      by rw [hk]; exact hmye ▸ hly⟩
  · exfalso
    have hcxy : (mergeLoop o cfg (buildByInode pwmds) 0 1 fs).2.1.content
        ((cx.headD default).cachedIno) =
        (mergeLoop o cfg (buildByInode pwmds) 0 1 fs).2.1.content
        ((cy.headD default).cachedIno) := by
      rw [hvx, hvy, hmxe, hmye]
      show fs.content ((fs.links x.path).getD 0) =
        fs.content ((fs.links y.path).getD 0)
      rw [hlinks x hx, hlinks y hy]
      show fs.content x.cachedIno = fs.content y.cachedIno
      exact heq
    obtain ⟨a, ha, hga⟩ := List.mem_iff_getElem.mp hcx
    obtain ⟨b, hb, hgb⟩ := List.mem_iff_getElem.mp hcy
    have hha : headIno (mergeLoop o cfg (buildByInode pwmds) 0 1 fs).1 a =
        (cx.headD default).cachedIno := by
      rw [headIno, List.getD_eq_getElem _ [] ha, hga]
    have hhb : headIno (mergeLoop o cfg (buildByInode pwmds) 0 1 fs).1 b =
        (cy.headD default).cachedIno := by
      rw [headIno, List.getD_eq_getElem _ [] hb, hgb]
    have hab : a ≠ b := by
      intro h
      subst h
      rw [hga] at hgb
      exact hk (by rw [hgb])
    rcases Nat.lt_or_gt_of_ne hab with h | h
    · exact hDistf a b h hb (by rw [hha, hhb]; exact hcxy)
    · exact hDistf b a h ha (by rw [hha, hhb]; exact hcxy.symm)

/-- C1 witness: on the example filesystem the two byte-identical files at
paths 1 and 2 (inodes 10 and 20) end on one shared inode after an
all-success non-dry run of their size bucket. -/
theorem c1_witness :
    ((Config.mk false 1).dry_run = false ∧
     (∀ p, allOk.removeOk p = true ∧ allOk.linkOk p = true ∧
       allOk.resetOk p = true ∧ allOk.openOk p = true) ∧
     FR exFS ∧ exFS.content 10 = exFS.content 20) ∧
    (∃ k, (run_one_size allOk ⟨false, 1⟩ [⟨1, 10⟩, ⟨2, 20⟩] exFS).2.1.links 1 =
        some k ∧
      (run_one_size allOk ⟨false, 1⟩ [⟨1, 10⟩, ⟨2, 20⟩] exFS).2.1.links 2 =
        some k) :=
  ⟨⟨rfl, fun p => ⟨rfl, rfl, rfl, rfl⟩, exFS_FR, rfl⟩,
   c1_duplicates_same_inode allOk ⟨false, 1⟩ rfl (fun p => ⟨rfl, rfl, rfl, rfl⟩)
     [⟨1, 10⟩, ⟨2, 20⟩] exFS exFS_FR (by decide) (by decide)
     ⟨1, 10⟩ ⟨2, 20⟩ (by decide) (by decide) rfl⟩

/-! ### C3 -/

/-- C3 counterexample: the claim states that no path is ever left missing at
the end of a run.  With an oracle in which both the hardlink creation and the
fallback byte-copy at path 1 fail (the remove itself succeeding), the merge
removes path 1 and then cannot re-create it: the pre-existing path 1 resolves
to nothing after the run, and the trace shows the remove with no link and no
copy event. -/
theorem c3_counterexample :
    exFS.links 1 = some 10 ∧
    (run_one_size exDoubleFail ⟨false, 1⟩ [⟨1, 10⟩, ⟨2, 20⟩] exFS).2.1.links 1 =
      none ∧
    (run_one_size exDoubleFail ⟨false, 1⟩ [⟨1, 10⟩, ⟨2, 20⟩] exFS).2.2 =
      [Ev.cmpEv 1 2, Ev.removeEv 1] := by
  have hcmp : (cmp exDoubleFail exFS (PWMD.mk 1 10).path (PWMD.mk 2 20).path).getD
      false = true := exFS_cmp12 exDoubleFail rfl rfl
  have hml := mergeLoop_pair exDoubleFail ⟨false, 1⟩ rfl ⟨2, 20⟩ ⟨1, 10⟩ exFS hcmp
  obtain ⟨hh1, hh2, hh3, hh4, hh5⟩ := hardlink_double_fail exDoubleFail ⟨2, 20⟩
    ⟨1, 10⟩ exFS 20 10 rfl rfl (by decide) rfl (by decide) (by decide)
  have hbuild : buildByInode [⟨1, 10⟩, ⟨2, 20⟩] = [[⟨2, 20⟩], [⟨1, 10⟩]] := by
    decide
  have hrun : run_one_size exDoubleFail ⟨false, 1⟩ [⟨1, 10⟩, ⟨2, 20⟩] exFS =
      ([[⟨2, 20⟩]], (hardlink exDoubleFail ⟨2, 20⟩ ⟨1, 10⟩ exFS).2.1,
       [Ev.cmpEv 1 2, Ev.removeEv 1]) := by
    simp only [run_one_size]
    rw [hbuild, hml, hh5, hh1]
  refine ⟨rfl, ?_, ?_⟩
  · rw [hrun]
    show (hardlink exDoubleFail ⟨2, 20⟩ ⟨1, 10⟩ exFS).2.1.links 1 = none
    rw [hh2 1, if_pos rfl]
  · rw [hrun]

/-- C3 (amended): provided the oracle can always complete at least one of
hardlink creation or byte-copy at every path (so the copy fallback of the
transaction never fails together with the link), a non-dry run over any list
of size buckets preserves every pre-existing file path: each such path still
resolves after the run, to content byte-identical to its pre-run bytes.
Without that proviso the guarantee fails, since a path is removed before it
is re-linked. -/
theorem c3_no_data_loss (o : Oracle) (cfg : Config) (hdry : cfg.dry_run = false)
    (hlc : ∀ p, o.linkOk p = true ∨ o.copyOk p = true)
    (buckets : List (List PWMD)) (fs : FS) (hfr : FR fs)
    (hlinks : ∀ b ∈ buckets, ∀ x ∈ b, fs.links x.path = some x.cachedIno)
    (hnd : (memberPaths buckets).Nodup) :
    Preserves fs (runBuckets o cfg buckets fs).1 :=
  (runBuckets_preserves o cfg hdry hlc buckets fs hfr hlinks hnd).1

/-- C3 witness: the amended preservation theorem applied to the concrete run
in which the hardlink at path 1 fails but its fallback copy succeeds. -/
theorem c3_witness :
    ((Config.mk false 1).dry_run = false ∧
     (∀ p, exLinkFail.linkOk p = true ∨ exLinkFail.copyOk p = true) ∧
     FR exFS) ∧
    Preserves exFS (runBuckets exLinkFail ⟨false, 1⟩ [[⟨1, 10⟩, ⟨2, 20⟩]] exFS).1 :=
  ⟨⟨rfl, fun p => Or.inr rfl, exFS_FR⟩,
   c3_no_data_loss exLinkFail ⟨false, 1⟩ rfl (fun p => Or.inr rfl)
     [[⟨1, 10⟩, ⟨2, 20⟩]] exFS exFS_FR (by decide) (by decide)⟩

/-! ### C6 -/

theorem addToDev_self (d : Nat) (p : FPath) :
    ∀ acc, ∃ ps, (d, ps) ∈ addToDev d p acc ∧ p ∈ ps := by
  intro acc
  induction acc with
  | nil => exact ⟨[p], by simp [addToDev], by simp⟩
  | cons e rest ih =>
    rcases e with ⟨d2, ps2⟩
    rw [addToDev]
    split_ifs with h
    · subst h
      exact ⟨ps2 ++ [p], by simp, by simp⟩
    · obtain ⟨ps, hm, hp⟩ := ih
      exact ⟨ps, List.mem_cons.mpr (Or.inr hm), hp⟩

theorem addToDev_preserve (d2 : Nat) (p2 : FPath) (d : Nat) (q : FPath) :
    ∀ acc, (∃ ps, (d, ps) ∈ acc ∧ q ∈ ps) →
      ∃ ps, (d, ps) ∈ addToDev d2 p2 acc ∧ q ∈ ps := by
  intro acc
  induction acc with
  | nil =>
    rintro ⟨ps, hm, _⟩
    simp at hm
  | cons e rest ih =>
    rcases e with ⟨d3, ps3⟩
    rintro ⟨ps, hm, hq⟩
    rw [addToDev]
    split_ifs with hd
    · rcases List.mem_cons.mp hm with h1 | h1
      · injection h1 with e1 e2
        subst e1
        subst e2
        exact ⟨ps ++ [p2], by simp, by simp [hq]⟩
      · exact ⟨ps, List.mem_cons.mpr (Or.inr h1), hq⟩
    · rcases List.mem_cons.mp hm with h1 | h1
      · exact ⟨ps, List.mem_cons.mpr (Or.inl h1), hq⟩
      · obtain ⟨ps2, hm2, hq2⟩ := ih ⟨ps, h1, hq⟩
        exact ⟨ps2, List.mem_cons.mpr (Or.inr hm2), hq2⟩

theorem mem_groupByDev (roots : List (FPath × Nat)) :
    ∀ r ∈ roots, ∃ ps, (r.2, ps) ∈ groupByDev roots ∧ r.1 ∈ ps := by
  have hfold : ∀ (l : List (FPath × Nat)) (acc : List (Nat × List FPath))
      (r : FPath × Nat), (r ∈ l ∨ (∃ ps, (r.2, ps) ∈ acc ∧ r.1 ∈ ps)) →
      ∃ ps, (r.2, ps) ∈ l.foldl (fun acc r => addToDev r.2 r.1 acc) acc ∧
        r.1 ∈ ps := by
    intro l
    induction l with
    | nil =>
      intro acc r h
      rcases h with h | h
      · simp at h
      · exact h
    | cons a t ih =>
      intro acc r h
      simp only [List.foldl_cons]
      rcases h with h | h
      · rcases List.mem_cons.mp h with h1 | h1
        · subst h1
          exact ih _ r (Or.inr (addToDev_self r.2 r.1 acc))
        · exact ih _ r (Or.inl h1)
      · exact ih _ r (Or.inr (addToDev_preserve a.2 a.1 r.2 r.1 acc h))
  exact fun r hr => hfold roots [] r (Or.inl hr)

theorem addToDev_sound (d2 : Nat) (p2 : FPath) (R : List (FPath × Nat))
    (hp2 : (p2, d2) ∈ R) :
    ∀ acc, (∀ d ps, (d, ps) ∈ acc → ∀ p ∈ ps, (p, d) ∈ R) →
      ∀ d ps, (d, ps) ∈ addToDev d2 p2 acc → ∀ p ∈ ps, (p, d) ∈ R := by
  intro acc
  induction acc with
  | nil =>
    intro _ d ps hm p hp
    simp only [addToDev, List.mem_singleton] at hm
    injection hm with e1 e2
    subst e1
    subst e2
    simp only [List.mem_singleton] at hp
    subst hp
    exact hp2
  | cons e rest ih =>
    rcases e with ⟨d3, ps3⟩
    intro hacc d ps hm p hp
    rw [addToDev] at hm
    split_ifs at hm with hd
    · rcases List.mem_cons.mp hm with h1 | h1
      · injection h1 with e1 e2
        subst e1
        subst e2
        rcases List.mem_append.mp hp with h2 | h2
        · exact hacc d ps3 (by simp) p h2
        · simp only [List.mem_singleton] at h2
          subst h2
          rw [hd]
          exact hp2
      · exact hacc d ps (by simp [h1]) p hp
    · rcases List.mem_cons.mp hm with h1 | h1
      · exact hacc d ps (by simp [h1]) p hp
      · exact ih (fun d4 ps4 h4 => hacc d4 ps4 (by simp [h4])) d ps h1 p hp

theorem groupByDev_sound (roots : List (FPath × Nat)) :
    ∀ d ps, (d, ps) ∈ groupByDev roots → ∀ p ∈ ps, (p, d) ∈ roots := by
  have hfold : ∀ (l : List (FPath × Nat)) (acc : List (Nat × List FPath)),
      (∀ d ps, (d, ps) ∈ acc → ∀ p ∈ ps, (p, d) ∈ roots) →
      (∀ r ∈ l, r ∈ roots) →
      ∀ d ps, (d, ps) ∈ l.foldl (fun acc r => addToDev r.2 r.1 acc) acc →
        ∀ p ∈ ps, (p, d) ∈ roots := by
    intro l
    induction l with
    | nil => intro acc hacc _; exact hacc
    | cons a t ih =>
      intro acc hacc hl
      simp only [List.foldl_cons]
      exact ih _ (addToDev_sound a.2 a.1 roots (hl a (by simp)) acc hacc)
        (fun r hr => hl r (by simp [hr]))
  exact hfold roots [] (by simp) (fun r hr => hr)

theorem groupByDev_const (d0 : Nat) :
    ∀ (l : List (FPath × Nat)) (acc : List (Nat × List FPath)),
      (∀ r ∈ l, r.2 = d0) → (acc = [] ∨ ∃ ps, acc = [(d0, ps)]) →
      (l.foldl (fun acc r => addToDev r.2 r.1 acc) acc = [] ∨
        ∃ ps, l.foldl (fun acc r => addToDev r.2 r.1 acc) acc = [(d0, ps)]) := by
  intro l
  induction l with
  | nil => intro acc _ hacc; exact hacc
  | cons a t ih =>
    intro acc hl hacc
    simp only [List.foldl_cons]
    refine ih _ (fun r hr => hl r (by simp [hr])) ?_
    have ha2 : a.2 = d0 := hl a (by simp)
    rcases hacc with h | ⟨ps, h⟩
    · subst h
      right
      refine ⟨[a.1], ?_⟩
      rw [ha2]
      rfl
    · subst h
      right
      refine ⟨ps ++ [a.1], ?_⟩
      rw [ha2, addToDev, if_pos rfl]

theorem check_ok_iff (roots : List (FPath × Nat)) :
    check_all_same_device roots = .ok () ↔
      roots.length ≤ 1 ∨ ∀ r1 ∈ roots, ∀ r2 ∈ roots, r1.2 = r2.2 := by
  simp only [check_all_same_device]
  split_ifs with h1 h2
  · exact iff_of_true rfl (Or.inl h1)
  · refine iff_of_true rfl (Or.inr ?_)
    intro r1 hr1 r2 hr2
    obtain ⟨ps1, hm1, _⟩ := mem_groupByDev roots r1 hr1
    obtain ⟨ps2, hm2, _⟩ := mem_groupByDev roots r2 hr2
    cases hg : groupByDev roots with
    | nil =>
      rw [hg] at hm1
      simp at hm1
    | cons x t =>
      rw [hg] at h2
      have ht : t = [] := by
        simp only [List.length_cons] at h2
        cases t with
        | nil => rfl
        | cons y t2 => simp at h2
      subst ht
      rw [hg] at hm1 hm2
      simp only [List.mem_singleton] at hm1 hm2
      have e1 : r1.2 = x.1 := by rw [← hm1]
      have e2 : r2.2 = x.1 := by rw [← hm2]
      rw [e1, e2]
  · refine iff_of_false (by simp) ?_
    rintro (h | h)
    · exact h1 h
    · have hex0 : ∃ r0, r0 ∈ roots := by
        cases roots with
        | nil => simp at h1
        | cons a t => exact ⟨a, by simp⟩
      obtain ⟨r0, hr0⟩ := hex0
      have hall : ∀ r ∈ roots, r.2 = r0.2 := fun r hr => h r hr r0 hr0
      rcases groupByDev_const r0.2 roots [] hall (Or.inl rfl) with hg | ⟨ps, hg⟩
      · rw [show groupByDev roots = roots.foldl
          (fun acc r => addToDev r.2 r.1 acc) [] from rfl, hg] at h2
        simp at h2
      · rw [show groupByDev roots = roots.foldl
          (fun acc r => addToDev r.2 r.1 acc) [] from rfl, hg] at h2
        simp at h2

theorem check_error_eq (roots : List (FPath × Nat)) (es : List DevEntry)
    (h : check_all_same_device roots = .error es) :
    es = (groupByDev roots).map (fun g =>
      match g.2 with
      | [p] => DevEntry.withExample g.1 p
      | _ => DevEntry.countOnly g.1 g.2.length) := by
  simp only [check_all_same_device] at h
  split_ifs at h with h1 h2 <;>
    first
    | exact Except.noConfusion h
    | (injection h with h3; exact h3.symm)

theorem devOf_entry (d : Nat) (ps : List FPath) :
    devOf (match ps with
      | [p] => DevEntry.withExample d p
      | _ => DevEntry.countOnly d ps.length) = d := by
  match ps with
  | [] => rfl
  | [p] => rfl
  | p :: q :: t => rfl

theorem check_error_coverage (roots : List (FPath × Nat)) (es : List DevEntry)
    (h : check_all_same_device roots = .error es) :
    ∀ r ∈ roots, ∃ en ∈ es, devOf en = r.2 := by
  have hes := check_error_eq roots es h
  subst hes
  intro r hr
  obtain ⟨ps, hm, _⟩ := mem_groupByDev roots r hr
  exact ⟨_, List.mem_map_of_mem _ hm, devOf_entry r.2 ps⟩

theorem check_error_example (roots : List (FPath × Nat)) (es : List DevEntry)
    (h : check_all_same_device roots = .error es) :
    ∀ d p, DevEntry.withExample d p ∈ es → (p, d) ∈ roots := by
  have hes := check_error_eq roots es h
  subst hes
  intro d p hmem
  rcases List.mem_map.mp hmem with ⟨g, hg, hge⟩
  rcases g with ⟨d2, ps2⟩
  cases ps2 with
  | nil => exact DevEntry.noConfusion hge
  | cons p2 t =>
    cases t with
    | nil =>
      injection hge with e1 e2
      subst e1
      subst e2
      exact groupByDev_sound roots _ _ hg _ (by simp)
    | cons q t2 => exact DevEntry.noConfusion hge

/-- C6 counterexample: the claim states that every eligible Path Record of a
target set is device-checked and that each offending device id is reported
with an example path.  Both parts fail.  First, only the target root records
are checked: a set whose two roots both live on device 0 passes the check,
even though walking the second root (a directory holding a mount point)
registers an eligible record on device 1, so the eligible records span two
devices.  Second, a device id holding more than one root path is reported
with a count only and no example path. -/
theorem c6_counterexample :
    check_all_same_device [(1, 0), (2, 0)] = .ok () ∧
    registerList ⟨false, 1⟩ [FsNode.file 0 5, FsNode.dir 0 [FsNode.file 1 5]] =
      [⟨0, 5⟩, ⟨1, 5⟩] ∧
    ((registerList ⟨false, 1⟩ [FsNode.file 0 5,
        FsNode.dir 0 [FsNode.file 1 5]]).map FileRec.dev) = [0, 1] ∧
    check_all_same_device [(1, 1), (2, 1), (3, 0)] =
      .error [DevEntry.countOnly 1 2, DevEntry.withExample 0 3] :=
  ⟨rfl, rfl, rfl, rfl⟩

/-- C6 (amended): before any comparison or mutation work begins, the target
ROOT records of every set are verified to share one device id — the check
accepts exactly when a set has at most one root or all its roots carry the
same device id; records discovered by walking below the roots are not
themselves device-checked.  When any set fails, the whole run is aborted
before any filesystem mutation with the report as the error; every offending
device id appears in the report, and an entry carries an example path exactly
for a device holding a single root path (that path being a genuine root of
the set), while a device with several root paths is reported with a count
only. -/
theorem c6_device_check (roots : List (FPath × Nat)) (o : Oracle) (cfg : Config)
    (sets : List (List (FPath × Nat))) (runs : List (List (List PWMD)))
    (fs : FS) :
    (check_all_same_device roots = .ok () ↔
      roots.length ≤ 1 ∨ ∀ r1 ∈ roots, ∀ r2 ∈ roots, r1.2 = r2.2) ∧
    (∀ e, checkAllSets sets = .error e →
      mainCheckThenRun o cfg sets runs fs = (fs, [], some e)) ∧
    (∀ es, check_all_same_device roots = .error es →
      (∀ r ∈ roots, ∃ en ∈ es, devOf en = r.2) ∧
      (∀ d p, DevEntry.withExample d p ∈ es → (p, d) ∈ roots)) := by
  refine ⟨check_ok_iff roots, ?_, ?_⟩
  · intro e he
    simp only [mainCheckThenRun]
    rw [he]
  · intro es hes
    exact ⟨check_error_coverage roots es hes, check_error_example roots es hes⟩

/-- C6 witness: the amended device-check theorem applied to a concrete
mixed-device root set. -/
theorem c6_witness :
    (check_all_same_device [(1, 1), (2, 1), (3, 0)] = .ok () ↔
      ([((1 : FPath), (1 : Nat)), (2, 1), (3, 0)].length ≤ 1 ∨
        ∀ r1 ∈ [((1 : FPath), (1 : Nat)), (2, 1), (3, 0)],
        ∀ r2 ∈ [((1 : FPath), (1 : Nat)), (2, 1), (3, 0)], r1.2 = r2.2)) ∧
    (∀ e, checkAllSets [[(1, 1), (2, 1), (3, 0)]] = .error e →
      mainCheckThenRun allOk ⟨false, 1⟩ [[(1, 1), (2, 1), (3, 0)]] [] exFS =
        (exFS, [], some e)) ∧
    (∀ es, check_all_same_device [(1, 1), (2, 1), (3, 0)] = .error es →
      (∀ r ∈ [((1 : FPath), (1 : Nat)), (2, 1), (3, 0)],
        ∃ en ∈ es, devOf en = r.2) ∧
      (∀ d p, DevEntry.withExample d p ∈ es →
        (p, d) ∈ [((1 : FPath), (1 : Nat)), (2, 1), (3, 0)])) :=
  c6_device_check [(1, 1), (2, 1), (3, 0)] allOk ⟨false, 1⟩
    [[(1, 1), (2, 1), (3, 0)]] [] exFS

end Lndups
